import Mathlib

/-!
Verification of the layout/import-sort engines of `eslint-plugin-fonds`
against its natural-language specification.

The development shallowly embeds the algorithmic core of three rules:

* `import-sort` (src/rules/import-sort.ts): entry construction, the outer
  comparator chain, segment reordering around side-effect barriers, block
  reconstruction, and the inner named-specifier rewrite;
* `consistent-list-newline` (src/rules/consistent-list-newline.ts): the
  `check` procedure over a container view;
* `consistent-chaining` (the rule in src/unnamed/part_008): the member-chain
  walk with the leading-property-access exemption.

External collaborators (the parser, ESLint token/comment queries, compiled
regular expressions) are modelled as explicit data or function parameters;
everything written by the repository itself is translated function by
function.  JavaScript `Array.prototype.sort` is stable for consistent
comparators (ECMAScript 2019), and every comparator in this rule ends in an
`originalIndex` tie-break, so it is modelled by a stable insertion sort.
Machine numbers in the sources stay well inside the exact-integer range, so
they are embedded as `Int`/`Nat`.
-/

/-- Whitespace test matching JavaScript `\s` on the ASCII range used by the
sources and test inputs of this development. -/
def jsIsWs (c : Char) : Bool :=
  c = ' ' || c = '\t' || c = '\n' || c = '\r' || c = '\x0b' || c = '\x0c'

/-- JavaScript `String.prototype.trim`: drop leading and trailing whitespace. -/
def jsTrim (s : String) : String :=
  String.mk (((s.toList.dropWhile jsIsWs).reverse.dropWhile jsIsWs).reverse)

/-- JavaScript `replace(/^\s+/, '')`: drop the leading whitespace run. -/
def dropLeadingWs (s : String) : String :=
  String.mk (s.toList.dropWhile jsIsWs)

/-- JavaScript `replace(/\s+$/, '')`: drop the trailing whitespace run. -/
def dropTrailingWs (s : String) : String :=
  String.mk ((s.toList.reverse.dropWhile jsIsWs).reverse)

/-- JavaScript `String.prototype.includes` for a single character. -/
def strContains (s : String) (c : Char) : Bool :=
  s.toList.contains c

/-- Character-offset slice `text.slice(a, b)` (the sources only slice ASCII
text, where JavaScript UTF-16 offsets coincide with character offsets). -/
def jsSlice (s : String) (a b : Nat) : String :=
  String.mk ((s.toList.drop a).take (b - a))

/-- Lexicographic character-list comparison: the order JavaScript `<` uses
on strings (code-unit-wise; identical to code-point order on the ASCII/BMP
text involved here). -/
def charListLtB : List Char → List Char → Bool
  | _, [] => false
  | [], _ :: _ => true
  | a :: as, b :: bs => if a < b then true else if b < a then false else charListLtB as bs

/-- JavaScript `a < b` on strings. -/
def jsStrLt (a b : String) : Bool :=
  charListLtB a.toList b.toList

/-- JavaScript `String.prototype.toLowerCase` on the ASCII range used
here. -/
def jsToLower (s : String) : String :=
  String.mk (s.toList.map Char.toLower)

/-- JavaScript `String.prototype.startsWith`. -/
def jsStartsWith (s pre : String) : Bool :=
  List.isPrefixOf pre.toList s.toList

/-- JavaScript `String.prototype.endsWith`. -/
def jsEndsWith (s suffix : String) : Bool :=
  List.isPrefixOf suffix.toList.reverse s.toList.reverse

/-- Whether `sub` occurs as a contiguous sublist. -/
def containsSubList (sub : List Char) : List Char → Bool
  | [] => sub.isEmpty
  | c :: t => List.isPrefixOf sub (c :: t) || containsSubList sub t

namespace ImportSortRule

/-- Path category of an import source (the `ImportPathCategory` type of
the import-sort rule). -/
inductive ImportPathCategory where
  | builtin
  | absolute
  | parent
  | sibling
  | indexCat
  | external
  | unknownCat
  | sideEffect
deriving DecidableEq, Repr

/-- Declaration category of an import (`ImportCategory` in import-sort.ts). -/
inductive ImportCategory where
  | named
  | defaultCat
  | namespaceCat
  | sideEffect
deriving DecidableEq, Repr

/-- The `typeImportHandling` option. -/
inductive TypeImportHandling where
  | ignoreTI
  | before
  | after
deriving DecidableEq, Repr

/-- Normalized `outer`/`inner` sort options (`NormalizedSortOption`). -/
structure NormalizedSortOption where
  enableLength : Bool
  enableAlphabet : Bool
  caseSensitive : Bool
deriving DecidableEq, Repr

/-- One import declaration as prepared by `buildEntries` (the rule's own
`ImportEntry` type).  `node` is dropped: every use of the node in the sorting
and rebuilding code goes through the precomputed fields below. -/
structure ImportEntry where
  text : String
  leadingText : String
  lengthScore : Int
  alphaKey : String
  originalIndex : Nat
  isSortable : Bool
  category : ImportCategory
  isTypeOnly : Bool
  sourceValue : String
  pathCategory : ImportPathCategory
deriving DecidableEq, Repr

/-- String comparison helper (`compareStrings`): optional lowercase
normalization, then the JavaScript `<`/`>` lexicographic comparison. -/
def compareStrings (a b : String) (caseSensitive : Bool) : Int :=
  let left := if caseSensitive then a else jsToLower a
  let right := if caseSensitive then b else jsToLower b
  if jsStrLt left right then -1
  else if jsStrLt right left then 1
  else 0

/-- Type-only priority between two entries (`getTypePriority`). -/
def getTypePriority (entryA entryB : ImportEntry) (handling : TypeImportHandling) : Int :=
  if handling = .ignoreTI then 0
  else
    let aType := entryA.isTypeOnly
    let bType := entryB.isTypeOnly
    if aType = bType then 0
    else if handling = .after
        ∧ entryA.pathCategory = entryB.pathCategory
        ∧ entryA.pathCategory = .parent then 0
    else if handling = .before then (if aType then -1 else 1)
    else (if aType then 1 else -1)

/-- Path category priority, smaller sorts earlier (`getPathPriority`). -/
def getPathPriority : ImportPathCategory → Int
  | .builtin => 0
  | .absolute => 1
  | .parent => 2
  | .sibling => 3
  | .indexCat => 4
  | .external => 5
  | .sideEffect => 6
  | .unknownCat => 7

/-- Declaration category priority (`getCategoryPriority`). -/
def getCategoryPriority : ImportCategory → Int
  | .defaultCat => 0
  | .named => 1
  | .namespaceCat => 2
  | .sideEffect => 3

/-- Categories that force a path comparison even without custom path groups
(`isSpecialPathCategory`). -/
def isSpecialPathCategory (category : ImportPathCategory) : Bool :=
  category = .builtin || category = .sideEffect

/-- Length/alphabet comparison shared by both passes (`compareEntries`). -/
def compareEntries (a b : ImportEntry) (config : NormalizedSortOption) : Int :=
  let lenDiff := if config.enableLength then a.lengthScore - b.lengthScore else 0
  if lenDiff ≠ 0 then lenDiff
  else
    let alphaDiff :=
      if config.enableAlphabet then compareStrings a.alphaKey b.alphaKey config.caseSensitive
      else 0
    if alphaDiff ≠ 0 then alphaDiff
    else (a.originalIndex : Int) - (b.originalIndex : Int)

/-- Outer comparator over one segment (`compareSegmentEntries`). -/
def compareSegmentEntries (a b : ImportEntry) (config : NormalizedSortOption)
    (typeHandling : TypeImportHandling) (enablePathSorting : Bool) : Int :=
  let typePriority := getTypePriority a b typeHandling
  if typePriority ≠ 0 then typePriority
  else
    let shouldComparePath := enablePathSorting
      || isSpecialPathCategory a.pathCategory
      || isSpecialPathCategory b.pathCategory
    let pathPriorityA := getPathPriority a.pathCategory
      - (if typeHandling = .ignoreTI ∧ a.isTypeOnly then 100 else 0)
    let pathPriorityB := getPathPriority b.pathCategory
      - (if typeHandling = .ignoreTI ∧ b.isTypeOnly then 100 else 0)
    let pathPriority := if shouldComparePath then pathPriorityA - pathPriorityB else 0
    if pathPriority ≠ 0 then pathPriority
    else
      let categoryPriority := getCategoryPriority a.category - getCategoryPriority b.category
      if categoryPriority ≠ 0 then categoryPriority
      else compareEntries a b config

/-- Stable insertion of one element with a JavaScript-style comparator: the
element moves left past `y` exactly when the comparator says it sorts
strictly earlier. -/
def insertByC (c : α → α → Int) (x : α) : List α → List α
  | [] => [x]
  | y :: ys => if c x y < 0 then x :: y :: ys else y :: insertByC c x ys

/-- Stable sort by a JavaScript-style comparator, modelling the stable
`Array.prototype.sort` used on segment copies. -/
def sortByC (c : α → α → Int) : List α → List α
  | [] => []
  | x :: xs => insertByC c x (sortByC c xs)

/-- Sort one contiguous sortable segment (`sortSegment`), including the
downgrade of `after` handling to `ignore` when the segment holds no
side-effect-category entry. -/
def sortSegment (segment : List ImportEntry) (config : NormalizedSortOption)
    (typeImportHandling : TypeImportHandling) (enablePathSorting : Bool) : List ImportEntry :=
  let hasSideEffect := segment.any (fun entry => entry.pathCategory = .sideEffect)
  let effectiveHandling :=
    if typeImportHandling = .after ∧ ¬hasSideEffect then .ignoreTI else typeImportHandling
  sortByC (fun a b => compareSegmentEntries a b config effectiveHandling enablePathSorting) segment

/-- Reference-level order equality (`areSameOrder`); entries built by
`buildEntries` carry pairwise distinct `originalIndex`, so structural
equality coincides with the JavaScript reference equality. -/
def areSameOrder (a b : List ImportEntry) : Bool :=
  a.length = b.length && (a.zip b).all (fun p => p.1 = p.2)

/-- First index where the sorted segment differs from the original
(`findFirstDifferenceIndex`); `none` models the source's `-1`. -/
def findFirstDifferenceIndex (original sorted : List ImportEntry) : Option Nat :=
  (List.range original.length).find? (fun i => original.get? i ≠ sorted.get? i)

/-- First order conflict, for the detailed diagnostic (`MismatchInfo`). -/
structure MismatchInfo where
  expected : ImportEntry
  actual : ImportEntry
deriving DecidableEq, Repr

/-- Result of `reorderEntries` (`ReorderResult`). -/
structure ReorderResult where
  finalEntries : List ImportEntry
  didReorder : Bool
  mismatch : Option MismatchInfo
deriving DecidableEq, Repr

/-- Mutable state of the `reorderEntries` traversal. -/
structure ReorderState where
  finalEntries : List ImportEntry
  didReorder : Bool
  buffer : List ImportEntry
  mismatch : Option MismatchInfo
deriving DecidableEq, Repr

/-- The `flush` closure inside `reorderEntries`. -/
def flushState (config : NormalizedSortOption) (typeImportHandling : TypeImportHandling)
    (enablePathSorting : Bool) (st : ReorderState) : ReorderState :=
  if st.buffer = [] then st
  else
    let sorted := sortSegment st.buffer config typeImportHandling enablePathSorting
    let didReorder := st.didReorder || !areSameOrder st.buffer sorted
    let mismatch :=
      match st.mismatch with
      | some m => some m
      | none =>
        match findFirstDifferenceIndex st.buffer sorted with
        | some i =>
          match sorted.get? i, st.buffer.get? i with
          | some e, some a => some ⟨e, a⟩
          | _, _ => none
        | none => none
    ⟨st.finalEntries ++ sorted, didReorder, [], mismatch⟩

/-- One step of the `entries.forEach` loop inside `reorderEntries`. -/
def reorderStep (config : NormalizedSortOption) (typeImportHandling : TypeImportHandling)
    (enablePathSorting : Bool) (st : ReorderState) (entry : ImportEntry) : ReorderState :=
  if !entry.isSortable then
    let st' := flushState config typeImportHandling enablePathSorting st
    { st' with finalEntries := st'.finalEntries ++ [entry] }
  else { st with buffer := st.buffer ++ [entry] }

/-- Reorder the entries of one import block (`reorderEntries`): buffer
sortable entries, flush at each non-sortable barrier, flush at the end. -/
def reorderEntries (entries : List ImportEntry) (outerConfig : NormalizedSortOption)
    (typeImportHandling : TypeImportHandling) (enablePathSorting : Bool) : ReorderResult :=
  let st := flushState outerConfig typeImportHandling enablePathSorting
    (entries.foldl (reorderStep outerConfig typeImportHandling enablePathSorting)
      ⟨[], false, [], none⟩)
  ⟨st.finalEntries, st.didReorder, st.mismatch⟩

/-- Leading text replayed for one rebuilt entry (`rebuildBlock` body). -/
def entryPiece (idx : Nat) (entry : ImportEntry) (eol : String) : String :=
  let lead :=
    if idx = 0 then dropLeadingWs entry.leadingText
    else if jsTrim entry.leadingText = "" then
      (if strContains entry.leadingText '\n' || strContains entry.leadingText '\r' then
        entry.leadingText
      else eol)
    else entry.leadingText
  lead ++ entry.text

/-- JavaScript `array.join('')`: concatenation of a list of strings. -/
def strConcat (l : List String) : String :=
  l.foldr (fun a b => a ++ b) ""

/-- Rebuild the whole import block from the final entries (`rebuildBlock`). -/
def rebuildBlock (entries : List ImportEntry) (eol : String) : String :=
  strConcat (entries.enum.map (fun p => entryPiece p.1 p.2 eol))

/-- Source text of the block the entries were built from: each entry's
leading span followed by its text (`buildEntries` slices the block into
exactly these pieces, the first leading span being empty). -/
def blockText (entries : List ImportEntry) : String :=
  strConcat (entries.map (fun e => e.leadingText ++ e.text))

/-- Non-whitespace characters of a string, in order. -/
def nonWsChars (s : String) : List Char :=
  s.toList.filter (fun c => !jsIsWs c)

/-- Replace an entry's original index, keeping every other field; models the
entry the parser rebuilds for the same declaration at a new position in the
fixed text. -/
def setIdx (e : ImportEntry) (n : Nat) : ImportEntry :=
  { e with originalIndex := n }

/-- Re-index a list of entries consecutively from `n`, as `buildEntries`
numbers the declarations of the fixed file. -/
def assignIdx : Nat → List ImportEntry → List ImportEntry
  | _, [] => []
  | n, e :: es => setIdx e n :: assignIdx (n + 1) es

/-- Maximal-run characterization of the reorder traversal: accumulate the
current sortable run in `buf`, sort and emit it at each barrier and at the
end.  Proved equal to the `finalEntries` field of `reorderEntries` below;
it makes the independent sorting of the maximal runs between barriers
explicit. -/
def runSortedAux (config : NormalizedSortOption) (h : TypeImportHandling) (p : Bool)
    (buf : List ImportEntry) : List ImportEntry → List ImportEntry
  | [] => sortSegment buf config h p
  | e :: rest =>
    if e.isSortable then runSortedAux config h p (buf ++ [e]) rest
    else sortSegment buf config h p ++ e :: runSortedAux config h p [] rest

/-- Whether every sortable run is already in sorted order; proved to be the
negation of the `didReorder` field of `reorderEntries` below. -/
def runsUnchangedAux (config : NormalizedSortOption) (h : TypeImportHandling) (p : Bool)
    (buf : List ImportEntry) : List ImportEntry → Bool
  | [] => areSameOrder buf (sortSegment buf config h p)
  | e :: rest =>
    if e.isSortable then runsUnchangedAux config h p (buf ++ [e]) rest
    else areSameOrder buf (sortSegment buf config h p) && runsUnchangedAux config h p [] rest

/-- JavaScript `String.prototype.includes` for a non-empty substring. -/
def jsIncludes (s sub : String) : Bool :=
  containsSubList sub.toList s.toList

/-- Capture group of the first match of `/\n([ \t]*)\S/`: the indentation of
the first line that starts with a non-whitespace character. -/
def findIndentCore : List Char → Option String
  | [] => none
  | c :: rest =>
    if c = '\n' then
      let run := rest.takeWhile (fun d => d = ' ' || d = '\t')
      match rest.dropWhile (fun d => d = ' ' || d = '\t') with
      | d :: _ => if jsIsWs d then findIndentCore rest else some (String.mk run)
      | [] => findIndentCore rest
    else findIndentCore rest

/-- Capture group of `/\n([ \t]*)$/`: the trailing space/tab run when the
string ends in a line break followed only by spaces/tabs. -/
def closingIndentOf (s : String) : Option String :=
  let r := s.toList.reverse
  let run := r.takeWhile (fun d => d = ' ' || d = '\t')
  match r.dropWhile (fun d => d = ' ' || d = '\t') with
  | '\n' :: _ => some (String.mk run.reverse)
  | _ => none

/-- Start index of the first `//` that runs to the end of the string with no
later line break, mirroring how `/(\s*\/\/.*)$/` can only anchor on such an
occurrence. -/
def findLineCommentStart (l : List Char) (i : Nat) : Option Nat :=
  match l with
  | [] => none
  | c :: rest =>
    match c, rest with
    | '/', '/' :: rest2 =>
      if rest2.contains '\n' then findLineCommentStart rest (i + 1) else some i
    | _, _ => findLineCommentStart rest (i + 1)

/-- Split at the first match of `/(\s*\/\/.*)$/`: the left part is the code
before the captured whitespace-plus-line-comment tail.  The regex can only
match at the whitespace run directly before a final line comment, and the
greedy `\s*` extends that run fully to the left. -/
def splitTrailingLineComment (s : String) : Option (String × String) :=
  match findLineCommentStart s.toList 0 with
  | none => none
  | some m =>
    let cs := s.toList
    let wsLen := ((cs.take m).reverse.takeWhile jsIsWs).length
    let i := m - wsLen
    some (String.mk (cs.take i), String.mk (cs.drop i))

/-- View of one comment as the rule reads it: its rendered text, its start
line, and the slice of its source line before its start column (the data
`isTrailingComment` inspects). -/
structure CommentView where
  ctext : String
  startLine : Nat
  linePrefix : String
deriving DecidableEq, Repr

/-- View of a (non-comment) token: value, type tag and start line. -/
structure TokenView where
  value : String
  ttype : String
  startLine : Nat
deriving DecidableEq, Repr

/-- Result of a `getTokenAfter(..., \x7b includeComments: true \x7d)` query. -/
inductive TokenOrComment where
  | tok (t : TokenView)
  | com (c : CommentView)
deriving DecidableEq, Repr

/-- View of one named import specifier plus the token/comment neighbourhood
the inner pass queries from the ESLint source-code object. -/
structure SpecNode where
  stext : String
  name : String
  endLine : Nat
  commentsBefore : List CommentView
  commentsAfter : List CommentView
  tokenAfter : Option TokenView
  tokenAfterInclComments : Option TokenOrComment
  tokenAfterCommaInclComments : Option TokenOrComment
deriving DecidableEq, Repr

/-- A comment is trailing when non-whitespace precedes it on its source line
(`isTrailingComment`). -/
def isTrailingComment (c : CommentView) : Bool :=
  (jsTrim c.linePrefix).length > 0

/-- Same-line comment following a specifier, looking past a separating comma
(`findTrailingComment`). -/
def findTrailingComment (spec : SpecNode) : Option CommentView :=
  let isComma :=
    match spec.tokenAfter with
    | some t => t.value = "," && t.ttype = "Punctuator"
    | none => false
  let tokenToCheck :=
    if isComma then spec.tokenAfterCommaInclComments else spec.tokenAfterInclComments
  match tokenToCheck with
  | some (.com c) => if c.startLine = spec.endLine then some c else none
  | _ => none

/-- Rendered text of a specifier with its re-attached leading and trailing
comments (`getSpecifierTextWithComments`). -/
def getSpecifierTextWithComments (spec : SpecNode) : String :=
  let beforeComments := spec.commentsBefore.filter (fun c => !isTrailingComment c)
  let afterComments0 := spec.commentsAfter
  let afterComments :=
    match findTrailingComment spec with
    | some extra =>
      if afterComments0.contains extra then afterComments0 else afterComments0 ++ [extra]
    | none => afterComments0
  let before := " ".intercalate (beforeComments.map (fun c => c.ctext))
  let after := " ".intercalate (afterComments.map (fun c => c.ctext))
  (if before ≠ "" then before ++ " " else "") ++ spec.stext
    ++ (if after ≠ "" then " " ++ after else "")

/-- Compact length of a specifier: rendered text with all whitespace removed
(`getSpecifierLength`). -/
def getSpecifierLength (spec : SpecNode) : Nat :=
  (spec.stext.toList.filter (fun c => !jsIsWs c)).length

/-- Identifier (or string literal) a specifier imports (`getSpecifierName`). -/
def getSpecifierName (spec : SpecNode) : String :=
  spec.name

/-- Inner comparator and sort over named specifiers
(`sortImportSpecifiers`); the final tie-break is the position in the
original array via `indexOf`. -/
def sortImportSpecifiers (specifiers : List SpecNode) (config : NormalizedSortOption) :
    List SpecNode :=
  sortByC (fun a b =>
    let lenDiff :=
      if config.enableLength then (getSpecifierLength a : Int) - (getSpecifierLength b : Int)
      else 0
    if lenDiff ≠ 0 then lenDiff
    else
      let alphaDiff :=
        if config.enableAlphabet then
          compareStrings (getSpecifierName a) (getSpecifierName b) config.caseSensitive
        else 0
      if alphaDiff ≠ 0 then alphaDiff
      else (specifiers.indexOf a : Int) - (specifiers.indexOf b : Int)) specifiers

/-- Rebuild the text between the braces of a named-import list
(`buildSpecifierBlock`). -/
def buildSpecifierBlock (existingInner : String) (sorted : List SpecNode) : String :=
  let specTexts := sorted.map getSpecifierTextWithComments
  if specTexts = [] then existingInner
  else
    let hasLineBreak := strContains existingInner '\n' || strContains existingInner '\r'
    let trimmed := dropTrailingWs existingInner
    let hasTrailingComma := jsEndsWith trimmed ","
    if !hasLineBreak then
      let leading := String.mk (existingInner.toList.takeWhile jsIsWs)
      let trailing := String.mk (existingInner.toList.reverse.takeWhile jsIsWs).reverse
      let body := ", ".intercalate specTexts
      leading ++ body ++ (if hasTrailingComma then "," else "") ++ trailing
    else
      let eol := if jsIncludes existingInner "\r\n" then "\r\n" else "\n"
      let indent := (findIndentCore existingInner.toList).getD "  "
      let closingInd := (closingIndentOf existingInner).getD ""
      let n := specTexts.length
      let lines := specTexts.enum.map (fun p =>
        let isLast := p.1 = n - 1
        let shouldAddComma := !isLast || hasTrailingComma
        let content :=
          if shouldAddComma then
            match splitTrailingLineComment p.2 with
            | some (code, comment) => code ++ "," ++ comment
            | none => p.2 ++ ","
          else p.2
        indent ++ content)
      eol ++ eol.intercalate lines ++ eol ++ closingInd

/-- One specifier of an import declaration; only named specifiers carry a
payload the inner pass uses. -/
inductive SpecifierView where
  | defaultSpec
  | namespaceSpec
  | namedSpec (importKind : String) (node : SpecNode)
deriving DecidableEq, Repr

/-- View of one `ImportDeclaration` node plus the token facts the rule
queries: character range, specifier list, source string, the end of the
token before the source string (for the length score) and the brace token
positions around the named-specifier list. -/
structure ImportDeclView where
  rangeStart : Nat
  rangeEnd : Nat
  importKind : String
  specifiers : List SpecifierView
  sourceValueStr : Option String
  sourceText : String
  firstTokenStart : Option Nat
  fromTokenEnd : Option Nat
  leftBraceEnd : Option Nat
  rightBraceStart : Option Nat
deriving DecidableEq, Repr

/-- Named specifiers of a declaration, with their inline import kinds
(the `filter` on `spec.type === 'ImportSpecifier'`). -/
def namedSpecifiers (decl : ImportDeclView) : List (String × SpecNode) :=
  decl.specifiers.filterMap (fun s =>
    match s with
    | .namedSpec k n => some (k, n)
    | _ => none)

/-- An import with no specifiers is side-effect-only (`isSideEffectImport`). -/
def isSideEffectImport (decl : ImportDeclView) : Bool :=
  decl.specifiers = []

/-- Declaration category of an import node (`getImportCategory`). -/
def getImportCategory (decl : ImportDeclView) : ImportCategory :=
  if isSideEffectImport decl then .sideEffect
  else if decl.specifiers.any (fun s =>
      match s with
      | .namedSpec _ _ => true
      | _ => false) then .named
  else if decl.specifiers.any (fun s => s = .defaultSpec) then .defaultCat
  else .namespaceCat

/-- Whether a declaration imports only types (`isTypeOnlyImport`). -/
def isTypeOnlyImport (decl : ImportDeclView) : Bool :=
  if decl.importKind = "type" then true
  else if decl.importKind = "value" then false
  else if decl.specifiers = [] then false
  else decl.specifiers.all (fun s =>
    match s with
    | .namedSpec k _ => k = "type"
    | _ => false)

/-- String form of the import source (`getImportSourceValue`). -/
def getImportSourceValue (decl : ImportDeclView) : String :=
  match decl.sourceValueStr with
  | some v => v
  | none => decl.sourceText

/-- One user path-group rule before compilation. -/
structure PathGroup where
  pattern : String
  group : ImportPathCategory

/-- One compiled path-group matcher (`PathGroupMatcher`): the compiled
regular expression is modelled by its test function. -/
structure PathGroupMatcher where
  test : String → Bool
  group : ImportPathCategory

/-- Compile configured path groups, dropping entries whose pattern does not
compile (`createPathGroupMatchers`); `compile` models the external
`new RegExp` constructor, returning `none` where it would throw. -/
def createPathGroupMatchers (groups : List (Option PathGroup))
    (compile : String → Option (String → Bool)) : List PathGroupMatcher :=
  groups.foldl (fun acc g =>
    match g with
    | none => acc
    | some pg =>
      match compile pg.pattern with
      | some t => acc ++ [⟨t, pg.group⟩]
      | none => acc) []

/-- Classify the path category of an import (`classifyPathCategory`):
side-effect first, then user matchers in order, then the default
classification of the module specifier string.  `builtins` models
`builtinModules` from `node:module`. -/
def classifyPathCategory (decl : ImportDeclView) (value : String)
    (matchers : List PathGroupMatcher) (builtins : List String) : ImportPathCategory :=
  if decl.specifiers = [] then .sideEffect
  else if value = "" then .unknownCat
  else
    match matchers.find? (fun m => m.test value) with
    | some m => m.group
    | none =>
      if value = "." ∨ value = "./" then .indexCat
      else if jsStartsWith value "../" ∨ value = ".." then .parent
      else if jsStartsWith value "./" then .sibling
      else if jsStartsWith value "/" then .absolute
      else if jsStartsWith value "node:" then .builtin
      else
        let normalized := String.mk (value.toList.takeWhile (fun c => c ≠ '/'))
        if builtins.contains value ∨ builtins.contains normalized then .builtin
        else .external

/-- Length score of an import declaration (`getImportLengthScore`): span
from the `import` token to the token before the source string, with the
whole-text length as fallback. -/
def getImportLengthScore (decl : ImportDeclView) (text : String) : Int :=
  match decl.firstTokenStart, decl.fromTokenEnd with
  | some s, some e => (e : Int) - (s : Int)
  | _, _ => ((jsSlice text decl.rangeStart decl.rangeEnd).length : Int)

/-- Alphabetical key of an import declaration (`getImportAlphaKey`). -/
def getImportAlphaKey (decl : ImportDeclView) : String :=
  match decl.sourceValueStr with
  | some v => v
  | none => decl.sourceText

/-- Rendered node text, `sourceCode.getText(node)`. -/
def getNodeText (decl : ImportDeclView) (text : String) : String :=
  jsSlice text decl.rangeStart decl.rangeEnd

/-- Rewrite the named-specifier braces of one declaration
(`rewriteNamedSpecifiers`). -/
def rewriteNamedSpecifiers (decl : ImportDeclView) (sorted : List SpecNode)
    (text : String) : String :=
  match namedSpecifiers decl with
  | [] => getNodeText decl text
  | _ =>
    match decl.leftBraceEnd, decl.rightBraceStart with
    | some lb, some rb =>
      let before := jsSlice text decl.rangeStart lb
      let after := jsSlice text rb decl.rangeEnd
      let inner := jsSlice text lb rb
      before ++ buildSpecifierBlock inner sorted ++ after
    | _, _ => getNodeText decl text

/-- Inner pass over one declaration (`normalizeImportText`): sort the named
specifiers and rebuild the brace block when the order changed. -/
def normalizeImportText (decl : ImportDeclView) (text : String)
    (innerConfig : NormalizedSortOption) : String × Bool :=
  let named := (namedSpecifiers decl).map (fun p => p.2)
  if named.length ≤ 1 then (getNodeText decl text, false)
  else if !innerConfig.enableLength && !innerConfig.enableAlphabet then
    (getNodeText decl text, false)
  else
    let sorted := sortImportSpecifiers named innerConfig
    let changed := (sorted.zip named).any (fun p => p.1 ≠ p.2)
    if !changed then (getNodeText decl text, false)
    else (rewriteNamedSpecifiers decl sorted text, true)

/-- Recursive worker of `buildEntries`, threading `previousEnd` and the
running index. -/
def buildEntriesGo (text : String) (innerConfig : NormalizedSortOption)
    (ignoreSideEffectImports : Bool) (matchers : List PathGroupMatcher)
    (builtins : List String) (prevEnd idx : Nat) :
    List ImportDeclView → List ImportEntry × Bool
  | [] => ([], false)
  | node :: rest =>
    let leadingText := jsSlice text prevEnd node.rangeStart
    let nt := normalizeImportText node text innerConfig
    let sourceValue := getImportSourceValue node
    let entry : ImportEntry :=
      { text := nt.1
        leadingText := leadingText
        lengthScore := getImportLengthScore node text
        alphaKey := getImportAlphaKey node
        originalIndex := idx
        isSortable := !(ignoreSideEffectImports && isSideEffectImport node)
        category := getImportCategory node
        isTypeOnly := isTypeOnlyImport node
        sourceValue := sourceValue
        pathCategory := classifyPathCategory node sourceValue matchers builtins }
    let restResult := buildEntriesGo text innerConfig ignoreSideEffectImports matchers
      builtins node.rangeEnd (idx + 1) rest
    (entry :: restResult.1, nt.2 || restResult.2)

/-- Build the sortable entries of the leading import block (`buildEntries`),
also reporting whether any inner pass changed a declaration's text. -/
def buildEntries (nodes : List ImportDeclView) (text : String)
    (innerConfig : NormalizedSortOption) (ignoreSideEffectImports : Bool)
    (matchers : List PathGroupMatcher) (builtins : List String) :
    List ImportEntry × Bool :=
  match nodes with
  | [] => ([], false)
  | first :: _ =>
    buildEntriesGo text innerConfig ignoreSideEffectImports matchers builtins
      first.rangeStart 0 nodes

/-- The resolved options record of the rule. -/
structure RuleOptions where
  outer : NormalizedSortOption
  inner : NormalizedSortOption
  ignoreSideEffectImports : Bool
  typeImportHandling : TypeImportHandling
  pathGroups : List (Option PathGroup)

/-- The rule's declared `defaultOptions`. -/
def defaultRuleOptions : RuleOptions :=
  ⟨⟨true, true, true⟩, ⟨true, true, true⟩, true, .before, []⟩

/-- A produced report: replaced range and replacement text (`context.report`
with its `fix`); `detailed` records whether the detailed message fired. -/
structure RuleReportIS where
  blockStart : Nat
  blockEnd : Nat
  detailed : Bool
  replacement : String
deriving DecidableEq, Repr

/-- The Program handler of the rule's `create` listener: build entries,
reorder, and report one block-replacing fix when something changed.  The
`importNodes` argument models the result of `collectTopImportDeclarations`
on the parsed file. -/
def importSortProgram (text : String) (importNodes : List ImportDeclView)
    (opts : RuleOptions) (compile : String → Option (String → Bool))
    (builtins : List String) : Option RuleReportIS :=
  match importNodes with
  | [] => none
  | first :: _ =>
    let eol := if jsIncludes text "\r\n" then "\r\n" else "\n"
    let matchers := createPathGroupMatchers opts.pathGroups compile
    let enablePathSorting := opts.pathGroups.length > 0
    let built := buildEntries importNodes text opts.inner opts.ignoreSideEffectImports
      matchers builtins
    let entries := built.1
    let hasInnerChange := built.2
    if entries.length ≤ 1 ∧ ¬hasInnerChange then none
    else
      let r := reorderEntries entries opts.outer opts.typeImportHandling enablePathSorting
      if ¬r.didReorder ∧ ¬hasInnerChange then none
      else
        let blockStart := first.rangeStart
        let blockEnd := (importNodes.getLastD first).rangeEnd
        some ⟨blockStart, blockEnd, r.mismatch.isSome, rebuildBlock r.finalEntries eol⟩

end ImportSortRule

namespace ListNewlineRule

/-- Node kinds handled by the consistent-list-newline rule (the 20 keys of
its options object). -/
inductive NodeKind where
  | arrayExpression
  | arrayPattern
  | arrowFunctionExpression
  | callExpression
  | exportNamedDeclaration
  | functionDeclaration
  | functionExpression
  | importDeclaration
  | jsonArrayExpression
  | jsonObjectExpression
  | jsxOpeningElement
  | newExpression
  | objectExpression
  | objectPattern
  | tsFunctionType
  | tsInterfaceDeclaration
  | tsTupleType
  | tsTypeLiteral
  | tsTypeParameterDeclaration
  | tsTypeParameterInstantiation
deriving DecidableEq, Repr

/-- The `multilineNodes` set inside `create`: node kinds whose closing
delimiter is enforced even for a single multi-line element. -/
def multilineNodes : List NodeKind :=
  [.arrayExpression, .functionDeclaration, .objectExpression, .objectPattern,
    .tsTypeLiteral, .tsTupleType, .tsInterfaceDeclaration]

/-- A token as the rule reads it: location lines, character range, and
whether its type tag is `Punctuator`. -/
structure Tok where
  startLine : Nat
  endLine : Nat
  rangeStart : Nat
  rangeEnd : Nat
  isPunctuator : Bool
deriving DecidableEq, Repr

/-- One child element, with the comment counts the rule queries around it. -/
structure ItemView where
  startLine : Nat
  endLine : Nat
  rangeStart : Nat
  rangeEnd : Nat
  commentsBeforeCount : Nat
  commentsAfterCount : Nat
deriving DecidableEq, Repr

/-- The container node plus the token-level facts `check` queries from the
source-code object: its first token, the token after the callee-ish part
(for call expressions), the token before the first and after the last item,
and the start of the token before `nextNode` when a trailing boundary node
was passed. -/
structure ContainerView where
  kind : NodeKind
  rangeEnd : Nat
  firstToken : Option Tok
  tokenAfterCalleeish : Option Tok
  tokenBeforeFirstItem : Option Tok
  tokenAfterLastItem : Option Tok
  nextTokenBeforeStart : Option Nat
deriving DecidableEq, Repr

/-- A fix produced by the rule. -/
inductive FixKind where
  | insertBefore (pos : Nat) (s : String)
  | insertAfter (pos : Nat) (s : String)
  | replaceRange (startPos endPos : Nat) (txt : String)
deriving DecidableEq, Repr

/-- One diagnostic: message id plus fix. -/
structure LNReport where
  messageId : String
  fix : FixKind
deriving DecidableEq, Repr

/-- Replace every `\r\n` or `\n` by the delimiter (`removeLines`'s
`code.replace(/(\r\n|\n)/g, delimiter)`); a lone `\r` is kept. -/
def replaceNewlinesList (d : List Char) : List Char → List Char
  | [] => []
  | '\r' :: '\n' :: rest => d ++ replaceNewlinesList d rest
  | '\n' :: rest => d ++ replaceNewlinesList d rest
  | c :: rest => c :: replaceNewlinesList d rest

/-- String version of `replaceNewlinesList`. -/
def replaceNewlines (s d : String) : String :=
  String.mk (replaceNewlinesList d.toList s.toList)

/-- Delimiter synthesized when joining interface/type-literal members whose
text does not already end in `,` or `;` (`getDelimiter`). -/
def getDelimiter (rootKind : NodeKind) (text : String) (current : ItemView) : Option String :=
  if rootKind ≠ .tsInterfaceDeclaration ∧ rootKind ≠ .tsTypeLiteral then none
  else
    let currentContent := jsSlice text current.rangeStart current.rangeEnd
    if jsEndsWith currentContent "," ∨ jsEndsWith currentContent ";" then none
    else some ","

/-- Layout mode of a container. -/
inductive LMode where
  | inlineM
  | newlineM
deriving DecidableEq, Repr

/-- State of the `items.forEach` walk in `check`. -/
structure WalkSt where
  mode : Option LMode
  lastLine : Nat
  reports : List LNReport
deriving DecidableEq, Repr

/-- One iteration of the `items.forEach` loop in `check`: establish the mode
from the first element, then report wrap/unwrap deviations.  The early
`return` on `getCommentsBefore(item).length > 0` leaves the callback before
the trailing `lastLine = item.loc.end.line` assignment, so that branch — and
only that branch — keeps the previous `lastLine`. -/
def walkStep (text : String) (kind : NodeKind) (prev : Option ItemView)
    (st : WalkSt) (item : ItemView) : WalkSt :=
  match st.mode with
  | none =>
    { st with
        mode := some (if item.startLine = st.lastLine then .inlineM else .newlineM)
        lastLine := item.endLine }
  | some m =>
    let currentStart := item.startLine
    if m = .newlineM ∧ currentStart = st.lastLine then
      { st with
          reports := st.reports ++ [⟨"shouldWrap", .insertBefore item.rangeStart "\n"⟩]
          lastLine := item.endLine }
    else if m = .inlineM ∧ currentStart ≠ st.lastLine then
      match prev with
      | some lastIt =>
        if item.commentsBeforeCount > 0 then st
        else
          let content := jsSlice text lastIt.rangeEnd item.rangeStart
          if strContains content '\n' then
            { st with
                reports := st.reports ++ [⟨"shouldNotWrap",
                  .replaceRange lastIt.rangeEnd item.rangeStart
                    (replaceNewlines content ((getDelimiter kind text lastIt).getD ""))⟩]
                lastLine := item.endLine }
          else { st with lastLine := item.endLine }
      | none => { st with lastLine := item.endLine }
    else { st with lastLine := item.endLine }

/-- The `items.forEach` loop of `check`, threading the previous item. -/
def walkItems (text : String) (kind : NodeKind) :
    Option ItemView → WalkSt → List ItemView → WalkSt
  | _, st, [] => st
  | prev, st, item :: rest =>
    walkItems text kind (some item) (walkStep text kind prev st item) rest

/-- Start-token resolution at the top of `check`: call/new expressions skip
the callee, anything that does not resolve to a punctuator falls back to
the token before the first item. -/
def resolveStartToken (node : ContainerView) : Option Tok :=
  let startToken0 : Option Tok :=
    if node.kind = .callExpression ∨ node.kind = .newExpression then none
    else node.firstToken
  let startToken1 : Option Tok :=
    if node.kind = .callExpression then node.tokenAfterCalleeish else startToken0
  match startToken1 with
  | some t => if t.isPunctuator then some t else node.tokenBeforeFirstItem
  | none => node.tokenBeforeFirstItem

/-- The `endRange` computation before the closing-delimiter phase. -/
def endRangeOf (node : ContainerView) : Nat :=
  match node.nextTokenBeforeStart with
  | some tb => min tb node.rangeEnd
  | none => node.rangeEnd

/-- The `check` procedure of consistent-list-newline: determine the layout
mode from the first element, report per-element deviations, then enforce
the closing-delimiter position.  `locLine` models
`sourceCode.getLocFromIndex(i).line`; the tokens the source asserts
non-null with `!` are required to be present, otherwise the container is
skipped. -/
def check (text : String) (locLine : Nat → Nat) (node : ContainerView)
    (children : List (Option ItemView)) : List LNReport :=
  let items := children.filterMap id
  match items with
  | [] => []
  | _ :: _ =>
    match resolveStartToken node, node.tokenAfterLastItem, items.getLast? with
    | some st, some et, some lastIt =>
      let startLine := st.startLine
      if st.startLine = et.endLine then []
      else
        let w := walkItems text node.kind none ⟨none, startLine, []⟩ items
        let endRange := endRangeOf node
        let endLocLine := locLine endRange
        if w.mode = some .newlineM ∧ endLocLine = w.lastLine then
          w.reports ++ [⟨"shouldWrap", .insertAfter lastIt.rangeEnd "\n"⟩]
        else if w.mode = some .inlineM ∧ endLocLine ≠ w.lastLine then
          if items.length = 1 ∧ node.kind ∉ multilineNodes then w.reports
          else if lastIt.commentsAfterCount > 0 then w.reports
          else
            let content := jsSlice text lastIt.rangeEnd endRange
            if strContains content '\n' then
              let delim := if items.length = 1 then some "" else getDelimiter node.kind text lastIt
              w.reports ++ [⟨"shouldNotWrap", .replaceRange lastIt.rangeEnd endRange
                (replaceNewlines content (delim.getD ""))⟩]
            else w.reports
        else w.reports
    | _, _, _ => []

/-- Last element of a walked list, `prev` when the list is empty. -/
def itemsLast : ItemView → List ItemView → ItemView
  | prev, [] => prev
  | _, it :: rest => itemsLast it rest

/-- Displace an element view by `s` newline insertions occurring before it:
each `insertTextBefore(item, "\n")` fix adds one character and one line
break, so character offsets and line numbers both grow by `s`. -/
def shiftItem (s : Nat) (it : ItemView) : ItemView :=
  ⟨it.startLine + s, it.endLine + s, it.rangeStart + s, it.rangeEnd + s,
    it.commentsBeforeCount, it.commentsAfterCount⟩

/-- Element views after the per-element fixes of a newline-mode run:
`lastOrig` replays the walk's `lastLine` over the original lines (in
newline mode every iteration updates it) and `shift` counts the newlines
inserted so far; an element the run reports — one starting on the walk's
`lastLine` — receives one more `"\n"` inserted directly before it. -/
def fixNewlineItems : Nat → Nat → List ItemView → List ItemView
  | _, _, [] => []
  | lastOrig, shift, it :: rest =>
    if it.startLine = lastOrig then
      shiftItem (shift + 1) it :: fixNewlineItems it.endLine (shift + 1) rest
    else
      shiftItem shift it :: fixNewlineItems it.endLine shift rest

/-- Number of `"\n"` insertions a newline-mode run places over the element
list, continuing from `shift` earlier ones. -/
def nlShift : Nat → Nat → List ItemView → Nat
  | _, shift, [] => shift
  | lastOrig, shift, it :: rest =>
    if it.startLine = lastOrig then nlShift it.endLine (shift + 1) rest
    else nlShift it.endLine shift rest

/-- Final `lastLine` of a newline-mode walk over the original lines. -/
def nlLast : Nat → List ItemView → Nat
  | lastOrig, [] => lastOrig
  | _, it :: rest => nlLast it.endLine rest

/-- Final `lastLine` of an inline-mode walk: mirroring `walkStep`, an
element preceded by comments and starting off the current `lastLine` leaves
`lastLine` untouched; every other element moves it to its own end line. -/
def inlineLast : Nat → List ItemView → Nat
  | lastLine, [] => lastLine
  | lastLine, it :: rest =>
    if it.startLine ≠ lastLine ∧ it.commentsBeforeCount > 0 then inlineLast lastLine rest
    else inlineLast it.endLine rest

/-- Geometric coherence of successive element views with the source text's
line function: character ranges are ordered and each element's recorded
lines are the lines of its range endpoints.  Every parsed file satisfies
this. -/
def itemsCoherent (locLine : Nat → Nat) : ItemView → List ItemView → Bool
  | _, [] => true
  | prev, it :: rest =>
    decide (prev.rangeEnd ≤ it.rangeStart) && decide (it.rangeStart ≤ it.rangeEnd)
      && decide (it.startLine = locLine it.rangeStart)
      && decide (it.endLine = locLine it.rangeEnd)
      && itemsCoherent locLine it rest

/-- Bounded monotonicity of a line function: up to offset `B`, a later
offset is never on an earlier line.  Every real line function satisfies
this at every bound. -/
def locMonoUpTo (locLine : Nat → Nat) (B : Nat) : Bool :=
  (List.range (B + 1)).all fun q => (List.range (q + 1)).all fun p =>
    decide (locLine p ≤ locLine q)

/-- Bounded coherence of a line function with its text: up to offset `B`, a
slice between two offsets of the same line holds no line break.  Every real
line function satisfies this at every bound. -/
def locCohUpTo (text : String) (locLine : Nat → Nat) (B : Nat) : Bool :=
  (List.range (B + 1)).all fun q => (List.range (q + 1)).all fun p =>
    !decide (locLine p = locLine q) || !strContains (jsSlice text p q) '\n'

/-- Gap safety of a text against a walked element list: before every
element, either comments precede it or the gap from the previous element
holds no line break.  An inline-mode walk over such elements reports
nothing. -/
def gapsSafe (txt : String) : ItemView → List ItemView → Prop
  | _, [] => True
  | prev, it :: rest =>
    (it.commentsBeforeCount > 0
        ∨ strContains (jsSlice txt prev.rangeEnd it.rangeStart) '\n' = false)
      ∧ gapsSafe txt it rest

/-- How one inline-mode run's per-element fixes relate the original file to
the fixed file, element by element: comment counts are untouched (the
`replaceRange` fixes rewrite comment-free gaps only) and the gap before
each element of the fixed text is the original gap with the element's fix —
when the run reported it — applied: `removeLines` replaces every line break
of the gap by the synthesized delimiter.  The walk mirrors `walkStep`'s
inline branch, including the stale `lastLine` kept over comment-preceded
elements. -/
def inlineFixedAgrees (text text' : String) (kind : NodeKind) :
    ItemView → ItemView → Nat → List ItemView → List ItemView → Bool
  | _, _, _, [], [] => true
  | _, _, _, [], _ :: _ => false
  | _, _, _, _ :: _, [] => false
  | prev, prev', lastLine, it :: rest, it' :: rest' =>
    let gap := jsSlice text prev.rangeEnd it.rangeStart
    let gap' := jsSlice text' prev'.rangeEnd it'.rangeStart
    decide (it'.commentsBeforeCount = it.commentsBeforeCount) &&
      (if it.startLine = lastLine then
        decide (gap' = gap) && inlineFixedAgrees text text' kind it it' it.endLine rest rest'
      else if it.commentsBeforeCount > 0 then
        decide (gap' = gap) && inlineFixedAgrees text text' kind it it' lastLine rest rest'
      else if strContains gap '\n' then
        decide (gap' = replaceNewlines gap ((getDelimiter kind text prev).getD ""))
          && inlineFixedAgrees text text' kind it it' it.endLine rest rest'
      else
        decide (gap' = gap) && inlineFixedAgrees text text' kind it it' it.endLine rest rest')

/-- The closing gap one inline-mode run leaves behind: when the run's
closing diagnostic fired (closing position off the walk's final `lastLine`,
not the permitted single-element case, no trailing comments, a line break
in the gap), the gap is rewritten with every line break replaced by the
delimiter; otherwise it is unchanged. -/
def fixInlineClosing (text : String) (kind : NodeKind) (lastIt : ItemView)
    (endRange endLocLine lastLine n : Nat) : String :=
  let content := jsSlice text lastIt.rangeEnd endRange
  if endLocLine = lastLine then content
  else if n = 1 ∧ kind ∉ multilineNodes then content
  else if lastIt.commentsAfterCount > 0 then content
  else if strContains content '\n' then
    replaceNewlines content
      ((if n = 1 then some "" else getDelimiter kind text lastIt).getD "")
  else content

end ListNewlineRule

namespace ChainingRule

/-- Unwrapped type of the object of a member access, as tested by the
leading-property-access exemption. -/
inductive ObjKind where
  | thisExpr
  | ident
  | literal
  | memberExpr
  | other
deriving DecidableEq, Repr

/-- The object kinds accepted by the exemption. -/
def isSimpleObject : ObjKind → Bool
  | .thisExpr => true
  | .ident => true
  | .memberExpr => true
  | .literal => true
  | .other => false

/-- Chain layout mode. -/
inductive CMode where
  | single
  | multi
deriving DecidableEq, Repr

/-- One non-computed member access of a chain: the line of the dot token,
the end line of the token before it, the unwrapped object kind, and the
ranges used by the fixes. -/
structure MemberView where
  dotLine : Nat
  prevEndLine : Nat
  objKind : ObjKind
  dotRangeStart : Nat
  prevRangeEnd : Nat
deriving DecidableEq, Repr

/-- Mode of one access: `single` when the dot shares a line with the token
before it. -/
def currentModeOf (m : MemberView) : CMode :=
  if m.dotLine = m.prevEndLine then .single else .multi

/-- A fix of the chaining rule. -/
inductive CFix where
  | insertAfterPrev (pos : Nat) (s : String)
  | removeRange (startPos endPos : Nat)
deriving DecidableEq, Repr

/-- One diagnostic of the chaining rule. -/
structure CReport where
  messageId : String
  fix : CFix
deriving DecidableEq, Repr

/-- State of the `members.forEach` walk. -/
structure ChainSt where
  leading : Bool
  mode : Option CMode
  reports : List CReport
deriving DecidableEq, Repr

/-- One iteration of the `members.forEach` loop of consistent-chaining:
skip exempt leading accesses, establish the mode at the first non-exempt
access, then report every later access whose mode disagrees. -/
def chainStep (st : ChainSt) (m : MemberView) : ChainSt :=
  let currentMode := currentModeOf m
  if st.leading ∧ isSimpleObject m.objKind = true ∧ currentMode = .single then st
  else
    let st1 : ChainSt := { st with leading := false }
    match st1.mode with
    | none => { st1 with mode := some currentMode }
    | some mo =>
      if mo ≠ currentMode then
        { st1 with reports := st1.reports ++
            [⟨(if mo = .single then "shouldNotWrap" else "shouldWrap"),
              (if mo = .multi then CFix.insertAfterPrev m.prevRangeEnd "\n"
                else CFix.removeRange m.prevRangeEnd m.dotRangeStart)⟩] }
      else st1

/-- The full walk over the collected members of one chain. -/
def processChain (allowLeadingPropertyAccess : Bool) (members : List MemberView) : ChainSt :=
  members.foldl chainStep ⟨allowLeadingPropertyAccess, none, []⟩

/-- A reported member after its fix: with established mode `multi`,
`insertTextAfter(tokenBefore, "\n")` pushes the dot one line below the
token before it; with mode `single`, `removeRange` joins the dot back onto
that token's line.  A fix elsewhere in the chain displaces a member's dot
and the token before it by the same amount, so the line relation of every
other member — all the rule reads of it — is unchanged. -/
def fixMember (mo : CMode) (m : MemberView) : MemberView :=
  if mo = .multi then { m with dotLine := m.prevEndLine + 1 }
  else { m with dotLine := m.prevEndLine }

/-- The member views of one chain after applying the fixes of one run:
mirroring `chainStep`, exactly the members the run reports (the
mode-mismatched ones after the mode is established) are replaced by their
fixed form. -/
def applyChainFixes : Bool → Option CMode → List MemberView → List MemberView
  | _, _, [] => []
  | leading, mode, m :: rest =>
    if leading ∧ isSimpleObject m.objKind = true ∧ currentModeOf m = .single then
      m :: applyChainFixes leading mode rest
    else
      match mode with
      | none => m :: applyChainFixes false (some (currentModeOf m)) rest
      | some mo =>
        if mo ≠ currentModeOf m then
          fixMember mo m :: applyChainFixes false (some mo) rest
        else m :: applyChainFixes false (some mo) rest

end ChainingRule

namespace ImportSortRule

/-- The default outer/inner sort option (all three flags on). -/
def defaultSortOption : NormalizedSortOption :=
  ⟨true, true, true⟩

/-- Entry for `import \x7b bar \x7d from './bar'` at index 0 (spec scenario):
length score 19 = span of `import \x7b bar \x7d from`, sibling path. -/
def eBarSc : ImportEntry :=
  ⟨"import \x7b bar \x7d from './bar'", "", 19, "./bar", 0, true, .named, false,
    "./bar", .sibling⟩

/-- Entry for `import type \x7b Foo \x7d from './types'` at index 1 (spec
scenario): length score 24, type-only, sibling path. -/
def eFooSc : ImportEntry :=
  ⟨"import type \x7b Foo \x7d from './types'", "\n", 24, "./types", 1, true, .named,
    true, "./types", .sibling⟩

/-- Entry for `import \x7b Blahbl \x7d from './y'` at index 0: length score 22. -/
def eValY : ImportEntry :=
  ⟨"import \x7b Blahbl \x7d from './y'", "", 22, "./y", 0, true, .named, false,
    "./y", .sibling⟩

/-- Entry for `import type \x7b A \x7d from './x'` at index 1: length score 22,
type-only. -/
def eTypeX : ImportEntry :=
  ⟨"import type \x7b A \x7d from './x'", "\n", 22, "./x", 1, true, .named, true,
    "./x", .sibling⟩

/-- Entry for `import fs from 'node:fs'` at index 0: builtin path,
default import, length score 14. -/
def eFs : ImportEntry :=
  ⟨"import fs from 'node:fs'", "", 14, "node:fs", 0, true, .defaultCat, false,
    "node:fs", .builtin⟩

/-- Entry for `import type \x7b EnvConfig \x7d from './types'` at index 1:
sibling path, type-only, length score 30. -/
def eEnv : ImportEntry :=
  ⟨"import type \x7b EnvConfig \x7d from './types'", "\n", 30, "./types", 1, true,
    .named, true, "./types", .sibling⟩

/-- Entry for `import \x7b bbbb \x7d from '/abs'` at index 0: absolute path,
length score 20. -/
def eAbsSc : ImportEntry :=
  ⟨"import \x7b bbbb \x7d from '/abs'", "", 20, "/abs", 0, true, .named, false,
    "/abs", .absolute⟩

/-- Entry for `import \x7b aa \x7d from 'lodash'` at index 1: external path,
length score 18. -/
def eExtSc : ImportEntry :=
  ⟨"import \x7b aa \x7d from 'lodash'", "\n", 18, "lodash", 1, true, .named, false,
    "lodash", .external⟩

/-- Entry for `import \x7b A \x7d from 'x'` at index 0: named import, length
score 17. -/
def eNamedX : ImportEntry :=
  ⟨"import \x7b A \x7d from 'x'", "", 17, "x", 0, true, .named, false, "x",
    .external⟩

/-- Entry for `import Abcde from 'x'` at index 1: default import with the
same length score 17 and the same alphabetical key. -/
def eDefX : ImportEntry :=
  ⟨"import Abcde from 'x'", "\n", 17, "x", 1, true, .defaultCat, false, "x",
    .external⟩

/-- Comma token on line 1, for the specifier views below. -/
def tokCommaL1 : TokenView := ⟨",", "Punctuator", 1⟩

/-- Closing-brace token on line 1. -/
def tokBraceL1 : TokenView := ⟨"\x7d", "Punctuator", 1⟩

/-- Specifier `bb` of `import \x7b bb,a \x7d from 'x'`: followed by a comma and
then the identifier `a` on the same line. -/
def specBB1 : SpecNode :=
  ⟨"bb", "bb", 1, [], [], some tokCommaL1, some (.tok tokCommaL1),
    some (.tok ⟨"a", "Identifier", 1⟩)⟩

/-- Specifier `a` of `import \x7b bb,a \x7d from 'x'`: followed by the closing
brace. -/
def specA1 : SpecNode :=
  ⟨"a", "a", 1, [], [], some tokBraceL1, some (.tok tokBraceL1), none⟩

/-- Specifier `ddddd` of `import \x7b ddddd \x7d from 'w'` on line 2. -/
def specDD1 : SpecNode :=
  ⟨"ddddd", "ddddd", 2, [], [], some ⟨"\x7d", "Punctuator", 2⟩,
    some (.tok ⟨"\x7d", "Punctuator", 2⟩), none⟩

/-- First-run input file of the idempotence counterexample. -/
def idemText1 : String :=
  "import \x7b bb,a \x7d from 'x'\nimport \x7b ddddd \x7d from 'w'"

/-- First declaration of `idemText1`: `import \x7b bb,a \x7d from 'x'`, range
0-24, `from` ends at 20, braces at 8 and 14. -/
def idemDecl1 : ImportDeclView :=
  ⟨0, 24, "value", [.namedSpec "value" specBB1, .namedSpec "value" specA1],
    some "x", "'x'", some 0, some 20, some 8, some 14⟩

/-- Second declaration of `idemText1`: `import \x7b ddddd \x7d from 'w'`, range
25-50, `from` ends at 46. -/
def idemDecl2 : ImportDeclView :=
  ⟨25, 50, "value", [.namedSpec "value" specDD1],
    some "w", "'w'", some 25, some 46, some 33, some 40⟩

/-- The fixed text the first run produces; second-run input. -/
def idemText2 : String :=
  "import \x7b a, bb \x7d from 'x'\nimport \x7b ddddd \x7d from 'w'"

/-- Specifier `a` of the fixed first declaration. -/
def specA2 : SpecNode :=
  ⟨"a", "a", 1, [], [], some tokCommaL1, some (.tok tokCommaL1),
    some (.tok ⟨"bb", "Identifier", 1⟩)⟩

/-- Specifier `bb` of the fixed first declaration. -/
def specBB2 : SpecNode :=
  ⟨"bb", "bb", 1, [], [], some tokBraceL1, some (.tok tokBraceL1), none⟩

/-- First declaration of `idemText2`: `import \x7b a, bb \x7d from 'x'`, range
0-25, `from` now ends at 21 (one character later than in the first run). -/
def idemDecl1b : ImportDeclView :=
  ⟨0, 25, "value", [.namedSpec "value" specA2, .namedSpec "value" specBB2],
    some "x", "'x'", some 0, some 21, some 8, some 15⟩

/-- Second declaration of `idemText2`, range 26-51. -/
def idemDecl2b : ImportDeclView :=
  ⟨26, 51, "value", [.namedSpec "value" specDD1],
    some "w", "'w'", some 26, some 47, some 34, some 41⟩

/-- Comment `// header` sitting on the opening-brace line of the
text-fidelity counterexample; `import \x7b ` precedes it on its line. -/
def cHeader : CommentView :=
  ⟨"// header", 1, "import \x7b "⟩

/-- Specifier `bb` of the fidelity counterexample, on line 2, with the
header comment among its leading comments. -/
def specBBc : SpecNode :=
  ⟨"bb", "bb", 2, [cHeader], [], some ⟨",", "Punctuator", 2⟩,
    some (.tok ⟨",", "Punctuator", 2⟩), some (.tok ⟨"a", "Identifier", 3⟩)⟩

/-- Specifier `a` of the fidelity counterexample, on line 3. -/
def specAc : SpecNode :=
  ⟨"a", "a", 3, [], [], some ⟨"\x7d", "Punctuator", 4⟩,
    some (.tok ⟨"\x7d", "Punctuator", 4⟩), none⟩

/-- Input of the text-fidelity counterexample: a multi-line named import
whose opening-brace line carries a trailing comment. -/
def fidelityText : String :=
  "import \x7b // header\n  bb,\n  a\n\x7d from 'x'"

/-- The single declaration of `fidelityText`: range 0-39, braces at 8 and
29, `from` ends at 35. -/
def fidelityDecl : ImportDeclView :=
  ⟨0, 39, "value", [.namedSpec "value" specBBc, .namedSpec "value" specAc],
    some "x", "'x'", some 0, some 35, some 8, some 29⟩

/-- Side-effect import `import './a.css'` of the barrier witness: range
0-16, no specifiers. -/
def declCss : ImportDeclView :=
  ⟨0, 16, "value", [], some "./a.css", "'./a.css'", some 0, some 6, none, none⟩

/-- Specifier `b` of the barrier witness's second declaration. -/
def specBw : SpecNode :=
  ⟨"b", "b", 2, [], [], some ⟨"\x7d", "Punctuator", 2⟩,
    some (.tok ⟨"\x7d", "Punctuator", 2⟩), none⟩

/-- Named import `import \x7b b \x7d from 'b'` of the barrier witness: range
17-38. -/
def declBw : ImportDeclView :=
  ⟨17, 38, "value", [.namedSpec "value" specBw],
    some "b", "'b'", some 17, some 34, some 25, some 28⟩

/-- Input of the barrier witness: a side-effect import followed by a
named import. -/
def barrierText : String :=
  "import './a.css'\nimport \x7b b \x7d from 'b'"

/-- Entry tying on every comparator key with `eTieB` except the original
index: `import \x7b aaa \x7d from 'm'` at index 0. -/
def eTieA : ImportEntry :=
  ⟨"import \x7b aaa \x7d from 'm'", "", 19, "m", 0, true, .named, false, "m",
    .external⟩

/-- Entry tying on every comparator key with `eTieA` except the original
index: `import \x7b bbb \x7d from 'm'` at index 1. -/
def eTieB : ImportEntry :=
  ⟨"import \x7b bbb \x7d from 'm'", "\n", 19, "m", 1, true, .named, false, "m",
    .external⟩

/-- Specifier `x as y`: compact length 4, imported name `x`. -/
def specTieA : SpecNode :=
  ⟨"x as y", "x", 1, [], [], none, none, none⟩

/-- Specifier `x as z`: compact length 4, the same imported name `x`. -/
def specTieB : SpecNode :=
  ⟨"x as z", "x", 1, [], [], none, none, none⟩

/-- A sample compiled path-group matcher mapping `@/`-prefixed sources to
the sibling category. -/
def atMatcher : PathGroupMatcher :=
  ⟨fun s => jsStartsWith s "@/", .sibling⟩

/-- A path group whose pattern `(` is not a valid regular expression; the
external `new RegExp` model maps it to `none`. -/
def pgBad : PathGroup :=
  ⟨"(", .sibling⟩

/-- A path group with a compilable pattern, for the fall-through witness. -/
def pgGood : PathGroup :=
  ⟨"^@/", .parent⟩

/-- A `new RegExp` model that fails on `pgBad`'s pattern and compiles
`pgGood`'s pattern to a prefix test. -/
def compileModel : String → Option (String → Bool) :=
  fun pat => if pat = "(" then none else some (fun s => jsStartsWith s "@/")

/-- One step of the `groups?.forEach` loop in `createPathGroupMatchers`,
named for the proofs below. -/
def cpgmStep (compile : String → Option (String → Bool))
    (acc : List PathGroupMatcher) (g : Option PathGroup) : List PathGroupMatcher :=
  match g with
  | none => acc
  | some pg =>
    match compile pg.pattern with
    | some t => acc ++ [⟨t, pg.group⟩]
    | none => acc

end ImportSortRule

namespace ListNewlineRule

/-- Counterexample input: single-property object whose element carries a
trailing comment before the closing brace's line break. -/
def objText1 : String :=
  "const o = \x7b a: 1 // c\n\x7d"

/-- Line of a character offset in `objText1` (the only line break is at
offset 21). -/
def objLoc1 : Nat → Nat :=
  fun i => if i ≤ 21 then 1 else 2

/-- The single property `a: 1` of `objText1`, with one comment after it. -/
def objItem1 : ItemView :=
  ⟨1, 1, 12, 16, 0, 1⟩

/-- The object-expression container of `objText1`. -/
def objNode1 : ContainerView :=
  ⟨.objectExpression, 23, some ⟨1, 1, 10, 11, true⟩, none,
    some ⟨1, 1, 10, 11, true⟩, some ⟨2, 2, 22, 23, true⟩, none⟩

/-- Witness input: same single-property object without the comment. -/
def objText2 : String :=
  "const o = \x7b a: 1\n\x7d"

/-- Line of a character offset in `objText2` (line break at offset 16). -/
def objLoc2 : Nat → Nat :=
  fun i => if i ≤ 16 then 1 else 2

/-- The single property `a: 1` of `objText2`. -/
def objItem2 : ItemView :=
  ⟨1, 1, 12, 16, 0, 0⟩

/-- The object-expression container of `objText2`. -/
def objNode2 : ContainerView :=
  ⟨.objectExpression, 18, some ⟨1, 1, 10, 11, true⟩, none,
    some ⟨1, 1, 10, 11, true⟩, some ⟨2, 2, 17, 18, true⟩, none⟩

/-- Witness input of the permitted case: a single type argument in
`f<A\n>`, a kind outside the always-enforce set. -/
def tpText : String :=
  "f<A\n>"

/-- Line of a character offset in `tpText` (line break at offset 3). -/
def tpLoc : Nat → Nat :=
  fun i => if i ≤ 3 then 1 else 2

/-- The single type argument `A` of `tpText`. -/
def tpItem : ItemView :=
  ⟨1, 1, 2, 3, 0, 0⟩

/-- The type-parameter-instantiation container of `tpText`. -/
def tpNode : ContainerView :=
  ⟨.tsTypeParameterInstantiation, 5, some ⟨1, 1, 1, 2, true⟩, none,
    some ⟨1, 1, 1, 2, true⟩, some ⟨2, 2, 4, 5, true⟩, none⟩

/-- Inline-idempotence witness, original text: a two-property object whose
second property sits on its own line. -/
def ilText : String :=
  "const o = \x7b a: 1,\nb: 2 \x7d"

/-- Line of a character offset in `ilText` (line break at offset 17). -/
def ilLoc : Nat → Nat :=
  fun i => if i ≤ 17 then 1 else 2

/-- Property `a: 1` of `ilText`. -/
def ilItemA : ItemView :=
  ⟨1, 1, 12, 16, 0, 0⟩

/-- Property `b: 2` of `ilText`, on line 2. -/
def ilItemB : ItemView :=
  ⟨2, 2, 18, 22, 0, 0⟩

/-- The object-expression container of `ilText`. -/
def ilNode : ContainerView :=
  ⟨.objectExpression, 24, some ⟨1, 1, 10, 11, true⟩, none,
    some ⟨1, 1, 10, 11, true⟩, some ⟨2, 2, 23, 24, true⟩, none⟩

/-- `ilText` after the run's only fix: the `,` + line break gap between the
properties is rewritten to `,`. -/
def ilTextF : String :=
  "const o = \x7b a: 1,b: 2 \x7d"

/-- Every offset of the one-line `ilTextF` is on line 1. -/
def ilLocF : Nat → Nat :=
  fun _ => 1

/-- Property `b: 2` of the fixed text, one character and one line up. -/
def ilItemBF : ItemView :=
  ⟨1, 1, 17, 21, 0, 0⟩

/-- The container of the fixed text `ilTextF`. -/
def ilNodeF : ContainerView :=
  ⟨.objectExpression, 23, some ⟨1, 1, 10, 11, true⟩, none,
    some ⟨1, 1, 10, 11, true⟩, some ⟨1, 1, 22, 23, true⟩, none⟩

/-- Newline-idempotence witness: first element `1` of the array
`[` + line break + `1, 2` + line break + `]`, on line 2. -/
def nlItem1 : ItemView :=
  ⟨2, 2, 2, 3, 0, 0⟩

/-- Second element `2`, sharing line 2 with the first — the run reports it
and inserts a line break before it. -/
def nlItem2 : ItemView :=
  ⟨2, 2, 5, 6, 0, 0⟩

/-- The fixed text of the newline witness. -/
def nlTextF : String :=
  "[\n1,\n 2\n]"

/-- Line of a character offset in `nlTextF`. -/
def nlLocF : Nat → Nat :=
  fun i => if i ≤ 1 then 1 else if i ≤ 4 then 2 else if i ≤ 7 then 3 else 4

/-- The array-expression container of the fixed newline-witness file: the
opening bracket still on line 1, the closing bracket one line further
down. -/
def nlNodeF : ContainerView :=
  ⟨.arrayExpression, 9, some ⟨1, 1, 0, 1, true⟩, none,
    some ⟨1, 1, 0, 1, true⟩, some ⟨4, 4, 8, 9, true⟩, none⟩

end ListNewlineRule

namespace ChainingRule

/-- First access `.bar` of the chain `foo\n  .bar()\n  .baz`: the dot is on
line 2, `foo` (an identifier) ends on line 1. -/
def memBar : MemberView :=
  ⟨2, 1, .ident, 5, 3⟩

/-- Second access `.baz`, written directly after `.bar()` on line 2; its
object is the call expression, not a simple reference. -/
def memBaz : MemberView :=
  ⟨2, 2, .other, 13, 12⟩

/-- Leading access `.bar` of `foo.bar`, on the same line as `foo`. -/
def memLead : MemberView :=
  ⟨1, 1, .ident, 3, 3⟩

end ChainingRule

namespace ImportSortRule

theorem insertByC_perm (c : α → α → Int) (x : α) (l : List α) :
    (insertByC c x l).Perm (x :: l) := by
  induction l with
  | nil => simp [insertByC]
  | cons y ys ih =>
    simp only [insertByC]
    split
    · exact List.Perm.refl _
    · exact ((ih.cons y).trans (List.Perm.swap x y ys))

theorem sortByC_perm (c : α → α → Int) (l : List α) : (sortByC c l).Perm l := by
  induction l with
  | nil => exact List.Perm.refl _
  | cons x xs ih =>
    exact (insertByC_perm c x (sortByC c xs)).trans (ih.cons x)

theorem sublist_insertByC (c : α → α → Int) (x : α) (l : List α) :
    l.Sublist (insertByC c x l) := by
  induction l with
  | nil => simp [insertByC]
  | cons y ys ih =>
    simp only [insertByC]
    split
    · exact (List.sublist_cons_self x (y :: ys))
    · exact List.Sublist.cons₂ y ih

theorem sublist_trans_insertByC (c : α → α → Int) (x : α) {s l : List α}
    (h : s.Sublist l) : s.Sublist (insertByC c x l) :=
  h.trans (sublist_insertByC c x l)

theorem insertByC_pair_sublist (c : α → α → Int) {a b : α} {l : List α}
    (hmem : b ∈ l) (hlt : c a b < 0) : [a, b].Sublist (insertByC c a l) := by
  induction l with
  | nil => cases hmem
  | cons y ys ih =>
    simp only [insertByC]
    split
    · exact List.Sublist.cons₂ a (List.singleton_sublist.mpr hmem)
    · rename_i hnot
      rcases List.mem_cons.mp hmem with hb | hb
      · exact absurd (hb ▸ hlt) hnot
      · exact List.Sublist.cons y (ih hb)

theorem sortByC_stable_pair (c : α → α → Int) {a b : α} {l : List α}
    (hsub : [a, b].Sublist l) (hlt : c a b < 0) : [a, b].Sublist (sortByC c l) := by
  induction l with
  | nil => cases hsub
  | cons x xs ih =>
    cases hsub with
    | cons _ htail =>
      exact sublist_trans_insertByC c x (ih htail)
    | cons₂ _ htail =>
      have hbmem : b ∈ sortByC c xs :=
        (sortByC_perm c xs).mem_iff.mpr (List.singleton_sublist.mp htail)
      exact insertByC_pair_sublist c hbmem hlt

theorem insertByC_chain' (c : α → α → Int) {x : α} {l : List α}
    (hch : l.Chain' (fun a b => c a b < 0))
    (htot : ∀ y ∈ l, c x y < 0 ∨ c y x < 0) :
    (insertByC c x l).Chain' (fun a b => c a b < 0) := by
  induction l with
  | nil => simp [insertByC]
  | cons y ys ih =>
    simp only [insertByC]
    split
    · exact hch.cons (by assumption)
    · rename_i hnot
      have hyx : c y x < 0 := by
        rcases htot y (List.mem_cons_self y ys) with h | h
        · exact absurd h hnot
        · exact h
      have hch' : (insertByC c x ys).Chain' (fun a b => c a b < 0) :=
        ih hch.tail (fun z hz => htot z (List.mem_cons_of_mem y hz))
      refine List.chain'_cons'.mpr ⟨?_, hch'⟩
      intro z hz
      cases ys with
      | nil =>
        simp only [insertByC, List.head?_cons, Option.mem_def] at hz
        obtain rfl := Option.some.inj hz
        exact hyx
      | cons w ws =>
        simp only [insertByC] at hz
        by_cases hcw : c x w < 0
        · simp only [if_pos hcw, List.head?_cons, Option.mem_def] at hz
          obtain rfl := Option.some.inj hz
          exact hyx
        · simp only [if_neg hcw, List.head?_cons, Option.mem_def] at hz
          obtain rfl := Option.some.inj hz
          exact (List.chain'_cons.mp hch).1

theorem sortByC_chain' (c : α → α → Int) {l : List α}
    (htot : l.Pairwise (fun a b => c a b < 0 ∨ c b a < 0)) :
    (sortByC c l).Chain' (fun a b => c a b < 0) := by
  induction l with
  | nil => simp [sortByC]
  | cons x xs ih =>
    have hmem : ∀ y ∈ sortByC c xs, c x y < 0 ∨ c y x < 0 := by
      intro y hy
      exact (List.pairwise_cons.mp htot).1 y ((sortByC_perm c xs).mem_iff.mp hy)
    exact insertByC_chain' c (ih (List.pairwise_cons.mp htot).2) hmem

theorem sortByC_eq_of_chain' (c : α → α → Int) {l : List α}
    (hch : l.Chain' (fun a b => c a b < 0)) : sortByC c l = l := by
  induction l with
  | nil => rfl
  | cons x xs ih =>
    have htail : sortByC c xs = xs := ih hch.tail
    simp only [sortByC, htail]
    cases xs with
    | nil => rfl
    | cons y ys =>
      simp only [insertByC, if_pos (List.chain'_cons.mp hch).1]

theorem sortSegment_perm (segment : List ImportEntry) (config : NormalizedSortOption)
    (h : TypeImportHandling) (p : Bool) :
    (sortSegment segment config h p).Perm segment := by
  unfold sortSegment
  exact sortByC_perm _ segment

theorem areSameOrder_refl (l : List ImportEntry) : areSameOrder l l = true := by
  induction l with
  | nil => rfl
  | cons x xs ih =>
    unfold areSameOrder at ih ⊢
    simp_all [List.zip_cons_cons]
    exact ih

theorem flushState_finalEntries (config : NormalizedSortOption) (h : TypeImportHandling)
    (p : Bool) (st : ReorderState) :
    (flushState config h p st).finalEntries
      = st.finalEntries ++ sortSegment st.buffer config h p := by
  unfold flushState
  split
  · rename_i hb
    simp [hb, sortSegment, sortByC]
  · rfl

theorem flushState_didReorder (config : NormalizedSortOption) (h : TypeImportHandling)
    (p : Bool) (st : ReorderState) :
    (flushState config h p st).didReorder
      = (st.didReorder || !areSameOrder st.buffer (sortSegment st.buffer config h p)) := by
  unfold flushState
  split
  · rename_i hb
    simp [hb, sortSegment, sortByC, areSameOrder]
  · rfl

theorem flushState_buffer (config : NormalizedSortOption) (h : TypeImportHandling)
    (p : Bool) (st : ReorderState) : (flushState config h p st).buffer = [] := by
  unfold flushState
  split
  · rename_i hb
    exact hb
  · rfl

theorem reorder_foldl_spec (config : NormalizedSortOption) (h : TypeImportHandling)
    (p : Bool) (l : List ImportEntry) :
    ∀ st : ReorderState,
      (flushState config h p (l.foldl (reorderStep config h p) st)).finalEntries
          = st.finalEntries ++ runSortedAux config h p st.buffer l
        ∧ (flushState config h p (l.foldl (reorderStep config h p) st)).didReorder
          = (st.didReorder || !runsUnchangedAux config h p st.buffer l) := by
  induction l with
  | nil =>
    intro st
    refine ⟨flushState_finalEntries config h p st, ?_⟩
    simp [flushState_didReorder, runsUnchangedAux]
  | cons e rest ih =>
    intro st
    simp only [List.foldl_cons]
    by_cases hs : e.isSortable
    · have hstep : reorderStep config h p st e = { st with buffer := st.buffer ++ [e] } := by
        simp [reorderStep, hs]
      rw [hstep]
      rcases ih { st with buffer := st.buffer ++ [e] } with ⟨h1, h2⟩
      refine ⟨?_, ?_⟩
      · rw [h1]
        simp [runSortedAux, hs]
      · rw [h2]
        simp [runsUnchangedAux, hs]
    · have hstep : reorderStep config h p st e
          = { flushState config h p st with
                finalEntries := (flushState config h p st).finalEntries ++ [e] } := by
        simp [reorderStep, hs]
      rw [hstep]
      rcases ih { flushState config h p st with
          finalEntries := (flushState config h p st).finalEntries ++ [e] } with ⟨h1, h2⟩
      refine ⟨?_, ?_⟩
      · rw [h1]
        simp only [flushState_finalEntries, flushState_buffer]
        simp [runSortedAux, hs, runsUnchangedAux]
      · rw [h2]
        simp only [flushState_didReorder, flushState_buffer]
        simp [runsUnchangedAux, hs, Bool.or_assoc]

theorem reorderEntries_finalEntries (entries : List ImportEntry)
    (config : NormalizedSortOption) (h : TypeImportHandling) (p : Bool) :
    (reorderEntries entries config h p).finalEntries
      = runSortedAux config h p [] entries := by
  unfold reorderEntries
  have := (reorder_foldl_spec config h p entries ⟨[], false, [], none⟩).1
  simpa using this

theorem reorderEntries_didReorder (entries : List ImportEntry)
    (config : NormalizedSortOption) (h : TypeImportHandling) (p : Bool) :
    (reorderEntries entries config h p).didReorder
      = !runsUnchangedAux config h p [] entries := by
  unfold reorderEntries
  have := (reorder_foldl_spec config h p entries ⟨[], false, [], none⟩).2
  simpa using this

theorem runSortedAux_perm (config : NormalizedSortOption) (h : TypeImportHandling)
    (p : Bool) (l : List ImportEntry) :
    ∀ buf, (runSortedAux config h p buf l).Perm (buf ++ l) := by
  induction l with
  | nil =>
    intro buf
    simpa using sortSegment_perm buf config h p
  | cons e rest ih =>
    intro buf
    by_cases hs : e.isSortable
    · simp only [runSortedAux, hs, if_pos]
      refine (ih (buf ++ [e])).trans ?_
      simp
    · simp only [runSortedAux, hs, Bool.false_eq_true, if_false]
      have hseg := sortSegment_perm buf config h p
      have hrest := ih []
      simp only [List.nil_append] at hrest
      refine (hseg.append_right _).trans ?_
      exact List.Perm.append_left buf (hrest.cons e)

/-- The final entry list of `reorderEntries` is a permutation of its input. -/
theorem reorderEntries_perm (entries : List ImportEntry)
    (config : NormalizedSortOption) (h : TypeImportHandling) (p : Bool) :
    (reorderEntries entries config h p).finalEntries.Perm entries := by
  rw [reorderEntries_finalEntries]
  simpa using runSortedAux_perm config h p entries []

theorem sortSegment_length (segment : List ImportEntry) (config : NormalizedSortOption)
    (h : TypeImportHandling) (p : Bool) :
    (sortSegment segment config h p).length = segment.length :=
  (sortSegment_perm segment config h p).length_eq

theorem runSortedAux_get_barrier (config : NormalizedSortOption) (h : TypeImportHandling)
    (p : Bool) (l : List ImportEntry) :
    ∀ (buf : List ImportEntry) (i : Nat) (e : ImportEntry),
      l[i]? = some e → e.isSortable = false →
      (runSortedAux config h p buf l)[buf.length + i]? = some e := by
  induction l with
  | nil =>
    intro buf i e he _
    simp at he
  | cons x rest ih =>
    intro buf i e he hs
    cases i with
    | zero =>
      simp only [List.getElem?_cons_zero, Option.some.injEq] at he
      subst he
      simp only [runSortedAux, hs, Bool.false_eq_true, if_false]
      rw [List.getElem?_append_right (by rw [sortSegment_length]; omega)]
      rw [sortSegment_length]
      simp
    | succ j =>
      simp only [List.getElem?_cons_succ] at he
      cases hxs : x.isSortable with
      | true =>
        simp only [runSortedAux, hxs, if_true]
        have := ih (buf ++ [x]) j e he hs
        have harith : (buf ++ [x]).length + j = buf.length + (j + 1) := by
          simp
          omega
        rwa [harith] at this
      | false =>
        simp only [runSortedAux, hxs, Bool.false_eq_true, if_false]
        rw [List.getElem?_append_right (by rw [sortSegment_length]; omega)]
        have hidx : buf.length + (j + 1) - (sortSegment buf config h p).length = j + 1 := by
          rw [sortSegment_length]
          omega
        rw [hidx]
        simp only [List.getElem?_cons_succ]
        have := ih [] j e he hs
        simpa using this

theorem buildEntriesGo_sortable (text : String) (cfg : NormalizedSortOption)
    (gse : Bool) (matchers : List PathGroupMatcher) (builtins : List String)
    (nodes : List ImportDeclView) :
    ∀ (prevEnd idx i : Nat) (d : ImportDeclView), nodes[i]? = some d →
      ∃ e, ((buildEntriesGo text cfg gse matchers builtins prevEnd idx nodes).1)[i]? = some e
        ∧ e.isSortable = !(gse && isSideEffectImport d) := by
  induction nodes with
  | nil =>
    intro _ _ i d hd
    simp at hd
  | cons n rest ih =>
    intro prevEnd idx i d hd
    cases i with
    | zero =>
      simp only [List.getElem?_cons_zero, Option.some.injEq] at hd
      subst hd
      refine ⟨{ text := (normalizeImportText n text cfg).1
                leadingText := jsSlice text prevEnd n.rangeStart
                lengthScore := getImportLengthScore n text
                alphaKey := getImportAlphaKey n
                originalIndex := idx
                isSortable := !(gse && isSideEffectImport n)
                category := getImportCategory n
                isTypeOnly := isTypeOnlyImport n
                sourceValue := getImportSourceValue n
                pathCategory := classifyPathCategory n (getImportSourceValue n) matchers
                  builtins }, ?_, rfl⟩
      simp [buildEntriesGo]
    | succ j =>
      simp only [List.getElem?_cons_succ] at hd
      obtain ⟨e, h1, h2⟩ := ih n.rangeEnd (idx + 1) j d hd
      exact ⟨e, by simp [buildEntriesGo, h1], h2⟩

/-- C10: for every list of import entries and every configuration, the
Import Sort Engine's reordering returns a permutation of its input — each
input entry (and hence its text) appears exactly once in the final entry
sequence — and the rebuilt block is the concatenation of one piece per
final entry, each piece being that entry's replayed leading span followed
by its text. -/
theorem claim_C10_reorder_is_permutation :
    ∀ (entries : List ImportEntry) (config : NormalizedSortOption)
      (h : TypeImportHandling) (p : Bool) (eol : String),
      (reorderEntries entries config h p).finalEntries.Perm entries
        ∧ ((reorderEntries entries config h p).finalEntries.map (fun e => e.text)).Perm
            (entries.map (fun e => e.text))
        ∧ rebuildBlock (reorderEntries entries config h p).finalEntries eol
            = strConcat ((reorderEntries entries config h p).finalEntries.enum.map
                (fun q => entryPiece q.1 q.2 eol)) := by
  intro entries config h p eol
  refine ⟨reorderEntries_perm entries config h p, ?_, rfl⟩
  exact (reorderEntries_perm entries config h p).map (fun e => e.text)

/-- C5: with `ignoreSideEffectImports` left at its default `true`, the
entries built for a leading import block sort around side-effect imports as
barriers: the final order is exactly the run-splitting `runSortedAux` (each
maximal sortable run between barriers sorted independently), and every
side-effect import (an import declaration with zero specifiers) is
unsortable and keeps its original position in the final entry sequence. -/
theorem claim_C5_side_effect_barriers :
    ∀ (nodes : List ImportDeclView) (text : String)
      (innerCfg outerCfg : NormalizedSortOption) (tih : TypeImportHandling) (ep : Bool)
      (matchers : List PathGroupMatcher) (builtins : List String) (i : Nat)
      (d : ImportDeclView),
      ((reorderEntries (buildEntries nodes text innerCfg true matchers builtins).1
            outerCfg tih ep).finalEntries
          = runSortedAux outerCfg tih ep []
              (buildEntries nodes text innerCfg true matchers builtins).1)
        ∧ (nodes[i]? = some d → isSideEffectImport d = true →
            ∃ e, ((buildEntries nodes text innerCfg true matchers builtins).1)[i]? = some e
              ∧ e.isSortable = false
              ∧ (reorderEntries (buildEntries nodes text innerCfg true matchers builtins).1
                    outerCfg tih ep).finalEntries[i]? = some e) := by
  intro nodes text innerCfg outerCfg tih ep matchers builtins i d
  refine ⟨reorderEntries_finalEntries _ _ _ _, ?_⟩
  intro hd hside
  cases nodes with
  | nil => simp at hd
  | cons first rest =>
    obtain ⟨e, h1, h2⟩ := buildEntriesGo_sortable text innerCfg true matchers builtins
      (first :: rest) first.rangeStart 0 i d hd
    rw [hside] at h2
    simp only [Bool.and_true, Bool.not_true] at h2
    refine ⟨e, ?_, h2, ?_⟩
    · simpa [buildEntries] using h1
    · rw [reorderEntries_finalEntries]
      have := runSortedAux_get_barrier outerCfg tih ep
        (buildEntries (first :: rest) text innerCfg true matchers builtins).1 [] i e
        (by simpa [buildEntries] using h1) h2
      simpa using this

/-- Witness for C5 at a concrete block: `import './a.css'` followed by
`import \x7b b \x7d from 'b'`; the side-effect import at index 0 is unsortable
and stays at index 0. -/
theorem claim_C5_witness :
    ∃ e, ((buildEntries [declCss, declBw] barrierText defaultSortOption true [] []).1)[0]?
        = some e
      ∧ e.isSortable = false
      ∧ (reorderEntries (buildEntries [declCss, declBw] barrierText defaultSortOption
            true [] []).1 defaultSortOption .before false).finalEntries[0]? = some e :=
  (claim_C5_side_effect_barriers [declCss, declBw] barrierText defaultSortOption
    defaultSortOption .before false [] [] 0 declCss).2 (by rfl) (by decide)

theorem getPathPriority_nonneg (cat : ImportPathCategory) : 0 ≤ getPathPriority cat := by
  cases cat <;> simp [getPathPriority]

theorem getPathPriority_le_seven (cat : ImportPathCategory) : getPathPriority cat ≤ 7 := by
  cases cat <;> simp [getPathPriority]

theorem getTypePriority_eq_zero_of_eq (a b : ImportEntry) (th : TypeImportHandling)
    (hty : a.isTypeOnly = b.isTypeOnly) : getTypePriority a b th = 0 := by
  simp [getTypePriority, hty]

theorem getTypePriority_before (a b : ImportEntry)
    (ha : a.isTypeOnly = true) (hb : b.isTypeOnly = false) :
    getTypePriority a b .before = -1 := by
  simp [getTypePriority, ha, hb]

theorem getTypePriority_after (a b : ImportEntry)
    (ha : a.isTypeOnly = true) (hb : b.isTypeOnly = false)
    (hpc : ¬(a.pathCategory = b.pathCategory ∧ a.pathCategory = .parent)) :
    getTypePriority a b .after = 1 := by
  simp [getTypePriority, ha, hb, hpc]

theorem compareSegment_before_typeFirst (a b : ImportEntry)
    (cfg : NormalizedSortOption) (p : Bool)
    (ha : a.isTypeOnly = true) (hb : b.isTypeOnly = false) :
    compareSegmentEntries a b cfg .before p < 0 := by
  have ht := getTypePriority_before a b ha hb
  simp [compareSegmentEntries, ht]

theorem compareSegment_after_typeLater (a b : ImportEntry)
    (cfg : NormalizedSortOption) (p : Bool)
    (ha : a.isTypeOnly = true) (hb : b.isTypeOnly = false)
    (hpc : ¬(a.pathCategory = b.pathCategory ∧ a.pathCategory = .parent)) :
    0 < compareSegmentEntries a b cfg .after p := by
  have ht := getTypePriority_after a b ha hb hpc
  simp [compareSegmentEntries, ht]

theorem sortSegment_after_downgrade (segment : List ImportEntry)
    (cfg : NormalizedSortOption) (p : Bool)
    (hnse : segment.any (fun entry => entry.pathCategory = ImportPathCategory.sideEffect)
      = false) :
    sortSegment segment cfg .after p
      = sortByC (fun a b => compareSegmentEntries a b cfg .ignoreTI p) segment := by
  simp [sortSegment, hnse]

theorem compareSegment_ignore_path_typeFirst (a b : ImportEntry)
    (cfg : NormalizedSortOption) (p : Bool)
    (ha : a.isTypeOnly = true) (hb : b.isTypeOnly = false)
    (hsp : (p || isSpecialPathCategory a.pathCategory
        || isSpecialPathCategory b.pathCategory) = true) :
    compareSegmentEntries a b cfg .ignoreTI p < 0 := by
  have hA1 := getPathPriority_nonneg a.pathCategory
  have hA2 := getPathPriority_le_seven a.pathCategory
  have hB1 := getPathPriority_nonneg b.pathCategory
  have hB2 := getPathPriority_le_seven b.pathCategory
  simp only [compareSegmentEntries, getTypePriority, reduceIte, hsp, ha, hb, if_true,
    and_true, and_false, Bool.false_eq_true, Bool.true_eq_false, and_self, if_false,
    eq_self_iff_true, true_and]
  split_ifs <;> omega

theorem compareSegment_ignore_noPath_typeIrrelevant (a b : ImportEntry)
    (cfg : NormalizedSortOption) (p : Bool) (x y : Bool)
    (hsp : (p || isSpecialPathCategory a.pathCategory
        || isSpecialPathCategory b.pathCategory) = false) :
    compareSegmentEntries { a with isTypeOnly := x } { b with isTypeOnly := y }
        cfg .ignoreTI p
      = compareSegmentEntries a b cfg .ignoreTI p := by
  simp only [compareSegmentEntries, getTypePriority, compareEntries, reduceIte, hsp,
    Bool.false_eq_true, if_false]

theorem compareSegment_keysTie (a b : ImportEntry) (cfg : NormalizedSortOption)
    (th : TypeImportHandling) (p : Bool)
    (hty : a.isTypeOnly = b.isTypeOnly) (hpc : a.pathCategory = b.pathCategory)
    (hcat : a.category = b.category) (hlen : a.lengthScore = b.lengthScore)
    (halpha : compareStrings a.alphaKey b.alphaKey cfg.caseSensitive = 0) :
    compareSegmentEntries a b cfg th p
      = (a.originalIndex : Int) - (b.originalIndex : Int) := by
  have ht := getTypePriority_eq_zero_of_eq a b th hty
  simp [compareSegmentEntries, compareEntries, ht, hty, hpc, hcat, hlen, halpha]

theorem compareSegment_typeTie_pathLt (a b : ImportEntry) (cfg : NormalizedSortOption)
    (th : TypeImportHandling) (p : Bool)
    (htie : getTypePriority a b th = 0)
    (hsp : (p || isSpecialPathCategory a.pathCategory
        || isSpecialPathCategory b.pathCategory) = true)
    (hign : th = .ignoreTI → a.isTypeOnly = b.isTypeOnly)
    (hlt : getPathPriority a.pathCategory < getPathPriority b.pathCategory) :
    compareSegmentEntries a b cfg th p < 0 := by
  simp only [compareSegmentEntries, htie, hsp, reduceIte, ne_eq, not_true_eq_false,
    if_true, if_false]
  by_cases hth : th = TypeImportHandling.ignoreTI
  · have hflags := hign hth
    subst hth
    simp only [hflags, true_and]
    split_ifs <;> omega
  · simp only [hth, false_and, if_false]
    split_ifs <;> omega

/-- C1 (amended): type-only handling in the outer comparator. With
`before`, a type-only entry always compares earlier than a non-type-only
one. With `after`, `sortSegment` downgrades the handling to `ignore`
whenever the segment holds no side-effect-category entry; at the comparator
level `after` puts a type-only entry later unless both entries are
parent-category. With `ignore`, a type-only entry receives a `-100` path
priority offset whenever the path comparison applies, so it compares
earlier; when the path comparison does not apply, the type-only flags do
not affect the comparison at all. Under the default `before` policy the
spec's scenario block is rebuilt with the type-only import first. -/
theorem claim_C1_type_import_policy :
    (∀ (a b : ImportEntry) (cfg : NormalizedSortOption) (p : Bool),
        a.isTypeOnly = true → b.isTypeOnly = false →
        compareSegmentEntries a b cfg .before p < 0)
      ∧ (∀ (seg : List ImportEntry) (cfg : NormalizedSortOption) (p : Bool),
          seg.any (fun e => e.pathCategory = ImportPathCategory.sideEffect) = false →
          sortSegment seg cfg .after p
            = sortByC (fun a b => compareSegmentEntries a b cfg .ignoreTI p) seg)
      ∧ (∀ (a b : ImportEntry) (cfg : NormalizedSortOption) (p : Bool),
          a.isTypeOnly = true → b.isTypeOnly = false →
          ¬(a.pathCategory = b.pathCategory ∧ a.pathCategory = ImportPathCategory.parent) →
          0 < compareSegmentEntries a b cfg .after p)
      ∧ (∀ (a b : ImportEntry) (cfg : NormalizedSortOption) (p : Bool),
          a.isTypeOnly = true → b.isTypeOnly = false →
          (p || isSpecialPathCategory a.pathCategory
              || isSpecialPathCategory b.pathCategory) = true →
          compareSegmentEntries a b cfg .ignoreTI p < 0)
      ∧ (∀ (a b : ImportEntry) (cfg : NormalizedSortOption) (p : Bool) (x y : Bool),
          (p || isSpecialPathCategory a.pathCategory
              || isSpecialPathCategory b.pathCategory) = false →
          compareSegmentEntries { a with isTypeOnly := x } { b with isTypeOnly := y }
              cfg .ignoreTI p
            = compareSegmentEntries a b cfg .ignoreTI p)
      ∧ rebuildBlock (reorderEntries [eBarSc, eFooSc] defaultSortOption .before
            false).finalEntries "\n"
          = "import type \x7b Foo \x7d from './types'\nimport \x7b bar \x7d from './bar'" := by
  refine ⟨?_, ?_, ?_, ?_, ?_, by decide⟩
  · intro a b cfg p ha hb
    exact compareSegment_before_typeFirst a b cfg p ha hb
  · intro seg cfg p hnse
    exact sortSegment_after_downgrade seg cfg p hnse
  · intro a b cfg p ha hb hpc
    exact compareSegment_after_typeLater a b cfg p ha hb hpc
  · intro a b cfg p ha hb hsp
    exact compareSegment_ignore_path_typeFirst a b cfg p ha hb hsp
  · intro a b cfg p x y hsp
    exact compareSegment_ignore_noPath_typeIrrelevant a b cfg p x y hsp

/-- C1 (counterexample to the claim as stated): with `typeImportHandling:
'after'` and a segment containing no side-effect import, the type-only
entry `./x` is placed BEFORE the non-type-only entry `./y` (the handling is
downgraded to `ignore` and the length/alphabet keys decide), contradicting
"with 'after' it sorts later". -/
theorem claim_C1_counterexample :
    eTypeX.isTypeOnly = true ∧ eValY.isTypeOnly = false
      ∧ (reorderEntries [eValY, eTypeX] defaultSortOption .after false).finalEntries
          = [eTypeX, eValY] := by
  decide

/-- Witness for C1 at concrete entries: `before` puts the scenario's
type-only import first; `after` (with both entries parent-free and a
side-effect present, here stated at comparator level) puts a type-only
entry later; `ignore` with a builtin entry in play pulls a type-only entry
forward. -/
theorem claim_C1_witness :
    compareSegmentEntries eFooSc eBarSc defaultSortOption .before false < 0
      ∧ 0 < compareSegmentEntries eTypeX eValY defaultSortOption .after false
      ∧ compareSegmentEntries eEnv eFs defaultSortOption .ignoreTI false < 0 :=
  ⟨claim_C1_type_import_policy.1 eFooSc eBarSc defaultSortOption false (by decide)
      (by decide),
    claim_C1_type_import_policy.2.2.1 eTypeX eValY defaultSortOption false (by decide)
      (by decide) (by decide),
    claim_C1_type_import_policy.2.2.2.1 eEnv eFs defaultSortOption false (by decide)
      (by decide) (by decide)⟩

/-- C2 (amended): the path-priority chain is builtin < absolute < parent <
sibling < index < external < side-effect < unknown, and the outer
comparator orders two entries by it whenever the type adjustment ties, the
path comparison applies (custom path groups configured, or one of the
entries builtin/side-effect category), and — under `ignore` handling — the
two type-only flags agree; user regex overrides are consulted in order
before the default classification, and an import matched by no override
falls through to the default classification. -/
theorem claim_C2_path_priority_order :
    (getPathPriority .builtin < getPathPriority .absolute
        ∧ getPathPriority .absolute < getPathPriority .parent
        ∧ getPathPriority .parent < getPathPriority .sibling
        ∧ getPathPriority .sibling < getPathPriority .indexCat
        ∧ getPathPriority .indexCat < getPathPriority .external
        ∧ getPathPriority .external < getPathPriority .sideEffect
        ∧ getPathPriority .sideEffect < getPathPriority .unknownCat)
      ∧ (∀ (a b : ImportEntry) (cfg : NormalizedSortOption) (th : TypeImportHandling)
          (p : Bool),
          getTypePriority a b th = 0 →
          (p || isSpecialPathCategory a.pathCategory
              || isSpecialPathCategory b.pathCategory) = true →
          (th = .ignoreTI → a.isTypeOnly = b.isTypeOnly) →
          getPathPriority a.pathCategory < getPathPriority b.pathCategory →
          compareSegmentEntries a b cfg th p < 0)
      ∧ (∀ (decl : ImportDeclView) (value : String) (m : PathGroupMatcher)
          (ms : List PathGroupMatcher) (bs : List String),
          decl.specifiers ≠ [] → value ≠ "" → m.test value = true →
          classifyPathCategory decl value (m :: ms) bs = m.group)
      ∧ (∀ (decl : ImportDeclView) (value : String) (matchers : List PathGroupMatcher)
          (bs : List String),
          (∀ m ∈ matchers, m.test value = false) →
          classifyPathCategory decl value matchers bs
            = classifyPathCategory decl value [] bs) := by
  refine ⟨by decide, ?_, ?_, ?_⟩
  · intro a b cfg th p htie hsp hign hlt
    exact compareSegment_typeTie_pathLt a b cfg th p htie hsp hign hlt
  · intro decl value m ms bs hspec hval hm
    unfold classifyPathCategory
    rw [if_neg hspec, if_neg hval, List.find?_cons_of_pos _ (by simp [hm])]
  · intro decl value matchers bs hall
    have hnone : matchers.find? (fun m => m.test value) = none :=
      List.find?_eq_none.mpr (fun x hx => by simp [hall x hx])
    unfold classifyPathCategory
    rw [hnone]
    simp

/-- C2 (counterexample to the claim as stated): with no custom path groups,
an absolute-path import and an external-package import are NOT ordered by
path category — the engine compares their lengths instead and puts the
external import (priority 5) before the absolute one (priority 1). -/
theorem claim_C2_counterexample :
    getPathPriority eAbsSc.pathCategory < getPathPriority eExtSc.pathCategory
      ∧ getTypePriority eAbsSc eExtSc .before = 0
      ∧ (reorderEntries [eAbsSc, eExtSc] defaultSortOption .before false).finalEntries
          = [eExtSc, eAbsSc] := by
  decide

/-- Witness for C2 at concrete inputs: a builtin entry compares before a
sibling entry when the path comparison applies; a matching override decides
the category ahead of the default classification; with no matching
override, classification falls through to the default. -/
theorem claim_C2_witness :
    compareSegmentEntries eFs eBarSc defaultSortOption .before false < 0
      ∧ classifyPathCategory declBw "@/x" [atMatcher] [] = ImportPathCategory.sibling
      ∧ classifyPathCategory declBw "zzz" [atMatcher] []
          = classifyPathCategory declBw "zzz" [] [] :=
  ⟨claim_C2_path_priority_order.2.1 eFs eBarSc defaultSortOption .before false
      (by decide) (by decide) (fun h => by cases h) (by decide),
    claim_C2_path_priority_order.2.2.1 declBw "@/x" atMatcher [] [] (by decide)
      (by decide) (by decide),
    claim_C2_path_priority_order.2.2.2 declBw "zzz" [atMatcher] []
      (by intro m hm; rw [List.mem_singleton] at hm; subst hm; decide)⟩

/-- C6 (amended): the stable tie-break. In the outer pass, two entries that
tie on EVERY comparator key (type-only flag, path category, declaration
category, length score, and case-normalized alphabetical key) keep their
input order in the sorted segment, because the comparator falls back to the
original index; in the inner pass, two specifiers with equal compact length
and equal case-normalized imported name keep their input order likewise. -/
theorem claim_C6_stable_tie_break :
    (∀ (seg : List ImportEntry) (a b : ImportEntry) (cfg : NormalizedSortOption)
        (th : TypeImportHandling) (p : Bool),
        [a, b].Sublist seg →
        a.isTypeOnly = b.isTypeOnly → a.pathCategory = b.pathCategory →
        a.category = b.category → a.lengthScore = b.lengthScore →
        compareStrings a.alphaKey b.alphaKey cfg.caseSensitive = 0 →
        a.originalIndex < b.originalIndex →
        [a, b].Sublist (sortSegment seg cfg th p))
      ∧ (∀ (specifiers : List SpecNode) (a b : SpecNode) (cfg : NormalizedSortOption),
          [a, b].Sublist specifiers →
          getSpecifierLength a = getSpecifierLength b →
          compareStrings (getSpecifierName a) (getSpecifierName b) cfg.caseSensitive = 0 →
          specifiers.indexOf a < specifiers.indexOf b →
          [a, b].Sublist (sortImportSpecifiers specifiers cfg)) := by
  constructor
  · intro seg a b cfg th p hsub hty hpc hcat hlen halpha hidx
    unfold sortSegment
    refine sortByC_stable_pair _ hsub ?_
    rw [compareSegment_keysTie a b cfg _ p hty hpc hcat hlen halpha]
    omega
  · intro specifiers a b cfg hsub hlen halpha hidx
    unfold sortImportSpecifiers
    refine sortByC_stable_pair _ hsub ?_
    simp only [hlen, halpha, sub_self, ite_self, ne_eq, not_true_eq_false, if_false,
      reduceIte]
    omega

/-- C6 (counterexample to the claim as stated): two entries with equal
length score and equal alphabetical key are still swapped when a
higher-priority comparator key (here the declaration category: default
before named) differs, so equal length and alpha alone do not guarantee
input order is kept. -/
theorem claim_C6_counterexample :
    eNamedX.lengthScore = eDefX.lengthScore ∧ eNamedX.alphaKey = eDefX.alphaKey
      ∧ (reorderEntries [eNamedX, eDefX] defaultSortOption .before false).finalEntries
          = [eDefX, eNamedX] := by
  decide

/-- Witness for C6 at concrete inputs: two fully tying import entries keep
their order through the outer sort, and two specifiers with equal compact
length and name keep theirs through the inner sort. -/
theorem claim_C6_witness :
    [eTieA, eTieB].Sublist (sortSegment [eTieA, eTieB] defaultSortOption .before false)
      ∧ [specTieA, specTieB].Sublist
          (sortImportSpecifiers [specTieA, specTieB] defaultSortOption) :=
  ⟨claim_C6_stable_tie_break.1 [eTieA, eTieB] eTieA eTieB defaultSortOption .before false
      (by decide) (by decide) (by decide) (by decide) (by decide) (by decide) (by decide),
    claim_C6_stable_tie_break.2 [specTieA, specTieB] specTieA specTieB defaultSortOption
      (by decide) (by decide) (by decide) (by decide)⟩

theorem charListLtB_asymm : ∀ {x y : List Char}, charListLtB x y = true → charListLtB y x = false := by
  intro x
  induction x with
  | nil =>
    intro y h
    cases y with
    | nil => simp [charListLtB] at h
    | cons b bs => simp [charListLtB]
  | cons a as ih =>
    intro y h
    cases y with
    | nil => simp [charListLtB] at h
    | cons b bs =>
      simp only [charListLtB] at h ⊢
      by_cases hab : a < b
      · have hba : ¬b < a := fun hc => absurd (lt_trans hc hab) (lt_irrefl b)
        simp [hab, hba]
      · by_cases hba : b < a
        · simp [hab, hba] at h
        · simp only [hab, hba, if_false] at h ⊢
          exact ih h

theorem compareStrings_antisymm (a b : String) (cs : Bool) :
    compareStrings b a cs = -(compareStrings a b cs) := by
  unfold compareStrings
  by_cases h1 : jsStrLt (if cs then a else jsToLower a) (if cs then b else jsToLower b) = true
  · have h2 : jsStrLt (if cs then b else jsToLower b) (if cs then a else jsToLower a)
        = false := charListLtB_asymm h1
    simp [h1, h2]
  · by_cases h2 : jsStrLt (if cs then b else jsToLower b) (if cs then a else jsToLower a)
        = true
    · simp [h1, h2]
    · simp [h1, h2]

theorem getTypePriority_antisymm (a b : ImportEntry) (th : TypeImportHandling) :
    getTypePriority b a th = -(getTypePriority a b th) := by
  cases th with
  | ignoreTI => simp [getTypePriority]
  | before =>
    unfold getTypePriority
    cases ha : a.isTypeOnly <;> cases hb : b.isTypeOnly <;> simp [ha, hb]
  | after =>
    unfold getTypePriority
    by_cases hc : a.pathCategory = b.pathCategory
        ∧ a.pathCategory = ImportPathCategory.parent
    · have h2 : b.pathCategory = ImportPathCategory.parent := hc.1 ▸ hc.2
      cases ha : a.isTypeOnly <;> cases hb : b.isTypeOnly <;>
        simp [ha, hb, hc.1, hc.2, h2]
    · have hc' : ¬(b.pathCategory = a.pathCategory
          ∧ b.pathCategory = ImportPathCategory.parent) :=
        fun hq => hc ⟨hq.1.symm, hq.1 ▸ hq.2⟩
      cases ha : a.isTypeOnly <;> cases hb : b.isTypeOnly <;>
        simp [ha, hb, hc, hc']

theorem compareEntries_antisymm (a b : ImportEntry) (cfg : NormalizedSortOption) :
    compareEntries b a cfg = -(compareEntries a b cfg) := by
  have hs := compareStrings_antisymm a.alphaKey b.alphaKey cfg.caseSensitive
  simp only [compareEntries]
  split_ifs <;> omega

theorem compareSegmentEntries_antisymm (a b : ImportEntry) (cfg : NormalizedSortOption)
    (th : TypeImportHandling) (p : Bool) :
    compareSegmentEntries b a cfg th p = -(compareSegmentEntries a b cfg th p) := by
  have hT := getTypePriority_antisymm a b th
  have hE := compareEntries_antisymm a b cfg
  have hsp : (p || isSpecialPathCategory b.pathCategory
      || isSpecialPathCategory a.pathCategory)
      = (p || isSpecialPathCategory a.pathCategory || isSpecialPathCategory b.pathCategory) := by
    cases p <;> cases hA : isSpecialPathCategory a.pathCategory <;>
      cases hB : isSpecialPathCategory b.pathCategory <;> simp_all
  simp only [compareSegmentEntries]
  rw [hsp]
  split_ifs <;> omega

theorem compareEntries_ne_of_idx_ne (a b : ImportEntry) (cfg : NormalizedSortOption)
    (hne : a.originalIndex ≠ b.originalIndex) :
    compareEntries a b cfg ≠ 0 := by
  simp only [compareEntries]
  split_ifs <;> omega

theorem compareSegment_eq_compareEntries_or (a b : ImportEntry)
    (cfg : NormalizedSortOption) (th : TypeImportHandling) (p : Bool) :
    compareSegmentEntries a b cfg th p = compareEntries a b cfg
      ∨ compareSegmentEntries a b cfg th p ≠ 0 := by
  simp only [compareSegmentEntries]
  split_ifs <;> first | (left; rfl) | (right; omega)

theorem compareSegment_ne_of_idx_ne (a b : ImportEntry) (cfg : NormalizedSortOption)
    (th : TypeImportHandling) (p : Bool)
    (hne : a.originalIndex ≠ b.originalIndex) :
    compareSegmentEntries a b cfg th p ≠ 0 := by
  rcases compareSegment_eq_compareEntries_or a b cfg th p with h | h
  · rw [h]
    exact compareEntries_ne_of_idx_ne a b cfg hne
  · exact h

theorem compareSegment_total_of_idx_ne (a b : ImportEntry) (cfg : NormalizedSortOption)
    (th : TypeImportHandling) (p : Bool)
    (hne : a.originalIndex ≠ b.originalIndex) :
    compareSegmentEntries a b cfg th p < 0 ∨ compareSegmentEntries b a cfg th p < 0 := by
  have h0 := compareSegment_ne_of_idx_ne a b cfg th p hne
  have ha := compareSegmentEntries_antisymm a b cfg th p
  omega

theorem compareEntries_setIdx_cases (a b : ImportEntry) (cfg : NormalizedSortOption)
    (i j : Nat) :
    compareEntries (setIdx a i) (setIdx b j) cfg = compareEntries a b cfg
      ∨ (compareEntries a b cfg = (a.originalIndex : Int) - (b.originalIndex : Int)
          ∧ compareEntries (setIdx a i) (setIdx b j) cfg = (i : Int) - (j : Int)) := by
  have hla : (setIdx a i).lengthScore = a.lengthScore := rfl
  have hlb : (setIdx b j).lengthScore = b.lengthScore := rfl
  have haa : (setIdx a i).alphaKey = a.alphaKey := rfl
  have hab : (setIdx b j).alphaKey = b.alphaKey := rfl
  have hia : (setIdx a i).originalIndex = i := rfl
  have hib : (setIdx b j).originalIndex = j := rfl
  simp only [compareEntries, hla, hlb, haa, hab, hia, hib]
  split_ifs <;> first | (left; rfl) | (right; exact ⟨rfl, rfl⟩)

theorem compareSegment_setIdx_cases (a b : ImportEntry) (cfg : NormalizedSortOption)
    (th : TypeImportHandling) (p : Bool) (i j : Nat) :
    compareSegmentEntries (setIdx a i) (setIdx b j) cfg th p
        = compareSegmentEntries a b cfg th p
      ∨ (compareSegmentEntries a b cfg th p
            = (a.originalIndex : Int) - (b.originalIndex : Int)
          ∧ compareSegmentEntries (setIdx a i) (setIdx b j) cfg th p
            = (i : Int) - (j : Int)) := by
  have hT : getTypePriority (setIdx a i) (setIdx b j) th = getTypePriority a b th := rfl
  have hpa : (setIdx a i).pathCategory = a.pathCategory := rfl
  have hpb : (setIdx b j).pathCategory = b.pathCategory := rfl
  have hya : (setIdx a i).isTypeOnly = a.isTypeOnly := rfl
  have hyb : (setIdx b j).isTypeOnly = b.isTypeOnly := rfl
  have hca : (setIdx a i).category = a.category := rfl
  have hcb : (setIdx b j).category = b.category := rfl
  simp only [compareSegmentEntries, hT, hpa, hpb, hya, hyb, hca, hcb]
  split_ifs <;> first
    | (left; rfl)
    | exact compareEntries_setIdx_cases a b cfg i j

theorem compareSegment_setIdx_lt (a b : ImportEntry) (cfg : NormalizedSortOption)
    (th : TypeImportHandling) (p : Bool) (i j : Nat)
    (hab : compareSegmentEntries a b cfg th p < 0) (hij : i < j) :
    compareSegmentEntries (setIdx a i) (setIdx b j) cfg th p < 0 := by
  rcases compareSegment_setIdx_cases a b cfg th p i j with h | ⟨h1, h2⟩
  · rw [h]
    exact hab
  · rw [h2]
    omega

theorem perm_any {l₁ l₂ : List ImportEntry} (f : ImportEntry → Bool)
    (h : l₁.Perm l₂) : l₁.any f = l₂.any f := by
  rw [Bool.eq_iff_iff]
  simp only [List.any_eq_true]
  exact ⟨fun ⟨x, hx, hfx⟩ => ⟨x, h.mem_iff.mp hx, hfx⟩,
    fun ⟨x, hx, hfx⟩ => ⟨x, h.mem_iff.mpr hx, hfx⟩⟩

theorem assignIdx_any_pathSE : ∀ (n : Nat) (l : List ImportEntry),
    (assignIdx n l).any (fun e => e.pathCategory = ImportPathCategory.sideEffect)
      = l.any (fun e => e.pathCategory = ImportPathCategory.sideEffect) := by
  intro n l
  induction l generalizing n with
  | nil => rfl
  | cons e t ih =>
    simp only [assignIdx, List.any_cons, ih]
    rfl

theorem assignIdx_all_sortable : ∀ (n : Nat) (l : List ImportEntry),
    (∀ e ∈ l, e.isSortable = true) →
    ∀ e ∈ assignIdx n l, e.isSortable = true := by
  intro n l
  induction l generalizing n with
  | nil =>
    intro _ e he
    cases he
  | cons x t ih =>
    intro hall e he
    rcases List.mem_cons.mp he with h | h
    · subst h
      exact hall x (List.mem_cons_self x t)
    · exact ih (n + 1) (fun y hy => hall y (List.mem_cons_of_mem x hy)) e h

theorem sortSegment_all_sortable (seg : List ImportEntry) (cfg : NormalizedSortOption)
    (th : TypeImportHandling) (p : Bool)
    (hall : ∀ e ∈ seg, e.isSortable = true) :
    ∀ e ∈ sortSegment seg cfg th p, e.isSortable = true :=
  fun e he => hall e ((sortSegment_perm seg cfg th p).mem_iff.mp he)

theorem sortSegment_any_congr (l : List ImportEntry) (cfg : NormalizedSortOption)
    (th : TypeImportHandling) (p : Bool) (b : Bool)
    (hb : l.any (fun e => e.pathCategory = ImportPathCategory.sideEffect) = b) :
    sortSegment l cfg th p
      = sortByC (fun x y => compareSegmentEntries x y cfg
          (if th = .after ∧ ¬(b = true) then .ignoreTI else th) p) l := by
  subst hb
  rfl

theorem assignIdx_chain (cfg : NormalizedSortOption) (th : TypeImportHandling) (p : Bool)
    (l : List ImportEntry)
    (hch : l.Chain' (fun a b => compareSegmentEntries a b cfg th p < 0)) :
    ∀ n, (assignIdx n l).Chain' (fun a b => compareSegmentEntries a b cfg th p < 0) := by
  induction l with
  | nil =>
    intro n
    simp [assignIdx]
  | cons a t ih =>
    intro n
    cases t with
    | nil => simp [assignIdx]
    | cons b t' =>
      have hrel := (List.chain'_cons.mp hch).1
      have htail := (List.chain'_cons.mp hch).2
      have := ih htail (n + 1)
      rw [show assignIdx n (a :: b :: t')
          = setIdx a n :: setIdx b (n + 1) :: assignIdx (n + 2) t' from rfl]
      rw [show assignIdx (n + 1) (b :: t')
          = setIdx b (n + 1) :: assignIdx (n + 2) t' from rfl] at this
      exact List.chain'_cons.mpr
        ⟨compareSegment_setIdx_lt a b cfg th p n (n + 1) hrel (by omega), this⟩

theorem sortByC_cmp_assignIdx_fixed (l : List ImportEntry) (cfg : NormalizedSortOption)
    (th' : TypeImportHandling) (p : Bool) (n : Nat)
    (hpw : l.Pairwise (fun a b => a.originalIndex ≠ b.originalIndex)) :
    sortByC (fun x y => compareSegmentEntries x y cfg th' p)
        (assignIdx n (sortByC (fun x y => compareSegmentEntries x y cfg th' p) l))
      = assignIdx n (sortByC (fun x y => compareSegmentEntries x y cfg th' p) l) := by
  have htot : l.Pairwise (fun a b =>
      compareSegmentEntries a b cfg th' p < 0
        ∨ compareSegmentEntries b a cfg th' p < 0) :=
    hpw.imp (fun hne => compareSegment_total_of_idx_ne _ _ cfg th' p hne)
  have hch := sortByC_chain' (fun x y => compareSegmentEntries x y cfg th' p) htot
  exact sortByC_eq_of_chain' _ (assignIdx_chain cfg th' p _ hch n)

theorem sortSegment_assignIdx_fixed (seg : List ImportEntry) (cfg : NormalizedSortOption)
    (th : TypeImportHandling) (p : Bool) (n : Nat)
    (hpw : seg.Pairwise (fun a b => a.originalIndex ≠ b.originalIndex)) :
    sortSegment (assignIdx n (sortSegment seg cfg th p)) cfg th p
      = assignIdx n (sortSegment seg cfg th p) := by
  have hanyS : (assignIdx n (sortSegment seg cfg th p)).any
        (fun e => e.pathCategory = ImportPathCategory.sideEffect)
      = seg.any (fun e => e.pathCategory = ImportPathCategory.sideEffect) := by
    rw [assignIdx_any_pathSE]
    exact perm_any _ (sortSegment_perm seg cfg th p)
  rw [sortSegment_any_congr (assignIdx n (sortSegment seg cfg th p)) cfg th p _ hanyS,
    sortSegment_any_congr seg cfg th p _ rfl]
  exact sortByC_cmp_assignIdx_fixed seg cfg _ p n hpw

theorem runSortedAux_append_sortable (cfg : NormalizedSortOption)
    (th : TypeImportHandling) (p : Bool) :
    ∀ (s rest buf : List ImportEntry), (∀ e ∈ s, e.isSortable = true) →
      runSortedAux cfg th p buf (s ++ rest) = runSortedAux cfg th p (buf ++ s) rest := by
  intro s
  induction s with
  | nil =>
    intro rest buf _
    simp
  | cons e s' ih =>
    intro rest buf hall
    have he : e.isSortable = true := hall e (List.mem_cons_self e s')
    simp only [List.cons_append, runSortedAux, he, if_true, List.append_eq]
    rw [ih rest (buf ++ [e]) (fun x hx => hall x (List.mem_cons_of_mem e hx))]
    simp

theorem runsUnchangedAux_append_sortable (cfg : NormalizedSortOption)
    (th : TypeImportHandling) (p : Bool) :
    ∀ (s rest buf : List ImportEntry), (∀ e ∈ s, e.isSortable = true) →
      runsUnchangedAux cfg th p buf (s ++ rest) = runsUnchangedAux cfg th p (buf ++ s) rest := by
  intro s
  induction s with
  | nil =>
    intro rest buf _
    simp
  | cons e s' ih =>
    intro rest buf hall
    have he : e.isSortable = true := hall e (List.mem_cons_self e s')
    simp only [List.cons_append, runsUnchangedAux, he, if_true, List.append_eq]
    rw [ih rest (buf ++ [e]) (fun x hx => hall x (List.mem_cons_of_mem e hx))]
    simp

theorem assignIdx_append : ∀ (n : Nat) (l₁ l₂ : List ImportEntry),
    assignIdx n (l₁ ++ l₂) = assignIdx n l₁ ++ assignIdx (n + l₁.length) l₂ := by
  intro n l₁
  induction l₁ generalizing n with
  | nil =>
    intro l₂
    simp [assignIdx]
  | cons e t ih =>
    intro l₂
    simp only [List.cons_append, assignIdx, List.append_eq, ih (n + 1) l₂, List.length_cons]
    rw [show n + 1 + t.length = n + (t.length + 1) by omega]

theorem dropWhile_head_false {α : Type} (q : α → Bool) :
    ∀ (l : List α) (b : α) (t : List α), l.dropWhile q = b :: t → q b = false := by
  intro l
  induction l with
  | nil =>
    intro b t h
    simp [List.dropWhile] at h
  | cons x xs ih =>
    intro b t h
    by_cases hq : q x = true
    · rw [List.dropWhile_cons_of_pos hq] at h
      exact ih b t h
    · rw [List.dropWhile_cons_of_neg hq] at h
      cases h
      simpa using hq

theorem runsUnchanged_after_sort (cfg : NormalizedSortOption) (th : TypeImportHandling)
    (p : Bool) :
    ∀ (fuel : Nat) (l : List ImportEntry), l.length ≤ fuel →
      l.Pairwise (fun a b => a.originalIndex ≠ b.originalIndex) →
      ∀ n, runsUnchangedAux cfg th p [] (assignIdx n (runSortedAux cfg th p [] l)) = true := by
  intro fuel
  induction fuel with
  | zero =>
    intro l hl _ n
    have hl0 : l = [] := List.length_eq_zero.mp (Nat.le_zero.mp hl)
    subst hl0
    rfl
  | succ fuelN ih =>
    intro l hl hpw n
    have hsplit : l.takeWhile (fun e => e.isSortable)
        ++ l.dropWhile (fun e => e.isSortable) = l :=
      List.takeWhile_append_dropWhile (fun e => e.isSortable) l
    have hrall : ∀ e ∈ l.takeWhile (fun e => e.isSortable), e.isSortable = true :=
      fun e he => List.mem_takeWhile_imp he
    have hpwr : (l.takeWhile (fun e => e.isSortable)).Pairwise
        (fun a b => a.originalIndex ≠ b.originalIndex) :=
      List.Pairwise.sublist (List.takeWhile_sublist _) hpw
    have hallS : ∀ e ∈ assignIdx n
          (sortSegment (l.takeWhile (fun e => e.isSortable)) cfg th p),
        e.isSortable = true :=
      assignIdx_all_sortable n _ (sortSegment_all_sortable _ cfg th p hrall)
    cases hrc : l.dropWhile (fun e => e.isSortable) with
    | nil =>
      have hlr : l = l.takeWhile (fun e => e.isSortable) := by
        conv_lhs => rw [← hsplit]
        rw [hrc, List.append_nil]
      have h1 : runSortedAux cfg th p [] l
          = sortSegment (l.takeWhile (fun e => e.isSortable)) cfg th p := by
        conv_lhs => rw [hlr, show l.takeWhile (fun e => e.isSortable)
          = l.takeWhile (fun e => e.isSortable) ++ [] by simp]
        rw [runSortedAux_append_sortable cfg th p _ [] [] hrall]
        simp [runSortedAux]
      rw [h1]
      conv_lhs => rw [show assignIdx n (sortSegment (l.takeWhile (fun e => e.isSortable))
            cfg th p)
          = assignIdx n (sortSegment (l.takeWhile (fun e => e.isSortable)) cfg th p)
            ++ [] by simp]
      rw [runsUnchangedAux_append_sortable cfg th p _ [] [] hallS]
      simp only [List.nil_append, runsUnchangedAux]
      rw [sortSegment_assignIdx_fixed _ cfg th p n hpwr]
      exact areSameOrder_refl _
    | cons b rest' =>
      have hb : b.isSortable = false := dropWhile_head_false _ l b rest' hrc
      have hl2 : l = l.takeWhile (fun e => e.isSortable) ++ b :: rest' := by
        conv_lhs => rw [← hsplit]
        rw [hrc]
      have h1 : runSortedAux cfg th p [] l
          = sortSegment (l.takeWhile (fun e => e.isSortable)) cfg th p
            ++ b :: runSortedAux cfg th p [] rest' := by
        conv_lhs => rw [hl2]
        rw [runSortedAux_append_sortable cfg th p _ (b :: rest') [] hrall]
        simp [runSortedAux, hb]
      rw [h1, assignIdx_append]
      rw [show assignIdx
            (n + (sortSegment (l.takeWhile (fun e => e.isSortable)) cfg th p).length)
            (b :: runSortedAux cfg th p [] rest')
          = setIdx b
              (n + (sortSegment (l.takeWhile (fun e => e.isSortable)) cfg th p).length)
            :: assignIdx
              (n + (sortSegment (l.takeWhile (fun e => e.isSortable)) cfg th p).length + 1)
              (runSortedAux cfg th p [] rest') from rfl]
      rw [runsUnchangedAux_append_sortable cfg th p _ _ [] hallS]
      have hbm : (setIdx b
          (n + (sortSegment (l.takeWhile (fun e => e.isSortable)) cfg th p).length)).isSortable
          = false := hb
      simp only [runsUnchangedAux, hbm, Bool.false_eq_true, if_false, List.nil_append]
      rw [sortSegment_assignIdx_fixed _ cfg th p n hpwr, areSameOrder_refl]
      simp only [Bool.true_and]
      have hlen : rest'.length ≤ fuelN := by
        have := congrArg List.length hl2
        simp only [List.length_append, List.length_cons] at this
        omega
      have hpwrest : rest'.Pairwise (fun a b => a.originalIndex ≠ b.originalIndex) :=
        List.Pairwise.sublist
          ((List.sublist_cons_self b rest').trans
            (hrc ▸ List.dropWhile_sublist (l := l) (p := fun e => e.isSortable)))
          hpw
      exact ih rest' hlen hpwrest _

/-- C3 (counterexample to the claim as stated): on
`import \x7b bb,a \x7d from 'x'` + `import \x7b ddddd \x7d from 'w'` the first run
only rewrites the inner specifier list (replacing the whole 50-character
file), but that rewrite lengthens the first declaration's
`import ... from` span from 20 to 21 characters; on the fixed text the two
length scores now tie, the alphabetical key `'w' < 'x'` decides, and the
second run reports again with a further reorder — the fix is not
idempotent. -/
theorem claim_C3_counterexample :
    importSortProgram idemText1 [idemDecl1, idemDecl2] defaultRuleOptions
        (fun _ => none) [] = some ⟨0, 50, false, idemText2⟩
      ∧ idemText1.length = 50
      ∧ importSortProgram idemText2 [idemDecl1b, idemDecl2b] defaultRuleOptions
          (fun _ => none) []
        = some ⟨0, 51, true,
            "import \x7b ddddd \x7d from 'w'\nimport \x7b a, bb \x7d from 'x'"⟩ := by
  refine ⟨by decide, by decide, by decide⟩

theorem nonWs_append (a b : String) : nonWsChars (a ++ b) = nonWsChars a ++ nonWsChars b := by
  unfold nonWsChars
  rw [show (a ++ b).toList = a.toList ++ b.toList from rfl, List.filter_append]

theorem nonWs_strConcat (l : List String) :
    nonWsChars (strConcat l) = (l.map nonWsChars).flatten := by
  induction l with
  | nil => rfl
  | cons s t ih =>
    rw [show strConcat (s :: t) = s ++ strConcat t from rfl, nonWs_append, ih]
    rfl

theorem jsTrim_empty_all_ws (s : String) (h : jsTrim s = "") :
    ∀ c ∈ s.toList, jsIsWs c = true := by
  unfold jsTrim at h
  have hdata := congrArg String.data h
  simp only [String.data] at hdata
  have h1 : ((s.toList.dropWhile jsIsWs).reverse.dropWhile jsIsWs).reverse = [] := hdata
  have h2 : (s.toList.dropWhile jsIsWs).reverse.dropWhile jsIsWs = [] := by
    have := congrArg List.reverse h1
    simpa using this
  have h3 : ∀ c ∈ (s.toList.dropWhile jsIsWs).reverse, jsIsWs c = true :=
    List.dropWhile_eq_nil_iff.mp h2
  have h4 : ∀ c ∈ s.toList.dropWhile jsIsWs, jsIsWs c = true := by
    intro c hc
    exact h3 c (List.mem_reverse.mpr hc)
  intro c hc
  rw [← List.takeWhile_append_dropWhile jsIsWs s.toList] at hc
  rcases List.mem_append.mp hc with h | h
  · exact List.mem_takeWhile_imp h
  · exact h4 c h

theorem nonWs_of_all_ws (s : String) (h : ∀ c ∈ s.toList, jsIsWs c = true) :
    nonWsChars s = [] := by
  unfold nonWsChars
  refine List.filter_eq_nil_iff.mpr ?_
  intro c hc
  simp [h c hc]

theorem nonWs_dropLeadingWs (s : String) : nonWsChars (dropLeadingWs s) = nonWsChars s := by
  unfold nonWsChars dropLeadingWs
  conv_rhs => rw [← List.takeWhile_append_dropWhile jsIsWs s.toList]
  rw [show (String.mk (s.toList.dropWhile jsIsWs)).toList = s.toList.dropWhile jsIsWs
    from rfl]
  rw [List.filter_append]
  have : (s.toList.takeWhile jsIsWs).filter (fun c => !jsIsWs c) = [] := by
    refine List.filter_eq_nil_iff.mpr ?_
    intro c hc
    simp [List.mem_takeWhile_imp hc]
  rw [this, List.nil_append]

theorem entryPiece_nonWs (i : Nat) (e : ImportEntry) (eol : String)
    (hws : ∀ c ∈ eol.toList, jsIsWs c = true) :
    nonWsChars (entryPiece i e eol) = nonWsChars (e.leadingText ++ e.text) := by
  unfold entryPiece
  by_cases hi : i = 0
  · simp only [hi, if_pos]
    rw [nonWs_append, nonWs_append, nonWs_dropLeadingWs]
  · simp only [hi, if_false, Bool.false_eq_true, ite_false, reduceIte]
    by_cases ht : jsTrim e.leadingText = ""
    · simp only [ht, if_pos, reduceIte]
      have hlead : nonWsChars e.leadingText = [] :=
        nonWs_of_all_ws _ (jsTrim_empty_all_ws _ ht)
      by_cases hnl : (strContains e.leadingText '\n' || strContains e.leadingText '\r')
          = true
      · simp only [hnl, if_true]
      · simp only [hnl, if_false, Bool.false_eq_true, reduceIte]
        rw [nonWs_append, nonWs_append, hlead, nonWs_of_all_ws eol hws]
    · simp only [ht, if_neg, reduceIte]

theorem rebuildBlock_nonWs (l : List ImportEntry) (eol : String)
    (hws : ∀ c ∈ eol.toList, jsIsWs c = true) :
    nonWsChars (rebuildBlock l eol)
      = (l.map (fun e => nonWsChars (e.leadingText ++ e.text))).flatten := by
  unfold rebuildBlock
  rw [nonWs_strConcat, List.map_map]
  have hcongr : l.enum.map ((fun s => nonWsChars s) ∘ (fun p => entryPiece p.1 p.2 eol))
      = l.enum.map (fun p => nonWsChars (p.2.leadingText ++ p.2.text)) := by
    refine List.map_congr_left ?_
    intro q _
    exact entryPiece_nonWs q.1 q.2 eol hws
  rw [hcongr]
  rw [show (fun p : Nat × ImportEntry => nonWsChars (p.2.leadingText ++ p.2.text))
      = (fun e : ImportEntry => nonWsChars (e.leadingText ++ e.text)) ∘ Prod.snd from rfl,
    ← List.map_map, List.enum_map_snd]

theorem blockText_nonWs (l : List ImportEntry) :
    nonWsChars (blockText l)
      = (l.map (fun e => nonWsChars (e.leadingText ++ e.text))).flatten := by
  unfold blockText
  rw [nonWs_strConcat, List.map_map]
  rfl

/-- C4 (amended): text fidelity of the OUTER reordering pass. For every
entry list and configuration, and any whitespace-only line separator, the
non-whitespace characters of the rebuilt block are a permutation of the
non-whitespace characters of the original block (each entry's leading span
followed by its text): the outer pass neither drops nor duplicates any
non-whitespace character, comments and separators included.  The companion
counterexample shows the engine-wide claim is false for the inner pass: a
comment sitting on the opening-brace line of a named-import list is dropped
by the specifier rewrite. -/
theorem claim_C4_outer_text_fidelity :
    ∀ (entries : List ImportEntry) (cfg : NormalizedSortOption)
      (th : TypeImportHandling) (p : Bool) (eol : String),
      (∀ c ∈ eol.toList, jsIsWs c = true) →
      (nonWsChars (rebuildBlock (reorderEntries entries cfg th p).finalEntries eol)).Perm
        (nonWsChars (blockText entries)) := by
  intro entries cfg th p eol hws
  rw [rebuildBlock_nonWs _ eol hws, blockText_nonWs]
  exact ((reorderEntries_perm entries cfg th p).map _).flatten

/-- Witness for C4 at the concrete scenario block with `"\n"` as
separator. -/
theorem claim_C4_witness :
    (nonWsChars (rebuildBlock (reorderEntries [eBarSc, eFooSc] defaultSortOption .before
          false).finalEntries "\n")).Perm
      (nonWsChars (blockText [eBarSc, eFooSc])) :=
  claim_C4_outer_text_fidelity [eBarSc, eFooSc] defaultSortOption .before false "\n"
    (by decide)

/-- C4 (counterexample to the claim as stated): on a multi-line named
declaration whose opening-brace line carries the comment `// header`,
the inner rewrite rebuilds the specifier block from the re-attached
specifier texts only; the comment is attached to no specifier (it is
`isTrailingComment`-filtered from the leading comments of `bb` and shares
no line with a specifier end), so the fixed output has lost its
non-whitespace characters. -/
theorem claim_C4_counterexample :
    importSortProgram fidelityText [fidelityDecl] defaultRuleOptions (fun _ => none) []
        = some ⟨0, 39, false, "import \x7b\n  a,\n  bb\n\x7d from 'x'"⟩
      ∧ fidelityText.length = 39
      ∧ ¬ (nonWsChars "import \x7b\n  a,\n  bb\n\x7d from 'x'").Perm
          (nonWsChars fidelityText) := by
  refine ⟨by decide, by decide, by decide⟩

theorem createPathGroupMatchers_eq_foldl (gs : List (Option PathGroup))
    (compile : String → Option (String → Bool)) :
    createPathGroupMatchers gs compile = gs.foldl (cpgmStep compile) [] :=
  rfl

theorem cpgm_acc (compile : String → Option (String → Bool)) :
    ∀ (gs : List (Option PathGroup)) (acc : List PathGroupMatcher),
      gs.foldl (cpgmStep compile) acc = acc ++ gs.foldl (cpgmStep compile) [] := by
  intro gs
  induction gs with
  | nil =>
    intro acc
    simp
  | cons g t ih =>
    intro acc
    have hstep : ∀ a : List PathGroupMatcher,
        cpgmStep compile a g = a ++ cpgmStep compile [] g := by
      intro a
      cases g with
      | none => simp [cpgmStep]
      | some pg =>
        cases hc : compile pg.pattern with
        | none => simp [cpgmStep, hc]
        | some tf => simp [cpgmStep, hc]
    simp only [List.foldl_cons]
    rw [ih (cpgmStep compile acc g), ih (cpgmStep compile [] g), hstep acc]
    simp

theorem cpgm_cons (g : Option PathGroup) (gs : List (Option PathGroup))
    (compile : String → Option (String → Bool)) :
    createPathGroupMatchers (g :: gs) compile
      = cpgmStep compile [] g ++ createPathGroupMatchers gs compile := by
  rw [createPathGroupMatchers_eq_foldl, createPathGroupMatchers_eq_foldl,
    List.foldl_cons, cpgm_acc]

/-- C9: a `pathGroups` entry whose pattern fails to compile (the model of a
malformed regular expression, for which `new RegExp` throws inside the
per-pattern `try`) is dropped from the matcher list: the compiled matchers
are exactly those of the well-formed entries in order, a leading malformed
entry contributes nothing, and classification over the group list with the
malformed entry equals classification without it — imports fall through to
the remaining patterns and then to the default classification.  The
embedded pipeline is a total function, modelling that the caught exception
never escapes the rule. -/
theorem claim_C9_invalid_pattern_dropped :
    (∀ (gs : List (Option PathGroup)) (compile : String → Option (String → Bool)),
        createPathGroupMatchers gs compile
          = createPathGroupMatchers (gs.filter (fun g =>
              match g with
              | none => false
              | some pg => (compile pg.pattern).isSome)) compile)
      ∧ (∀ (pg : PathGroup) (gs : List (Option PathGroup))
          (compile : String → Option (String → Bool)),
          compile pg.pattern = none →
          createPathGroupMatchers (some pg :: gs) compile
            = createPathGroupMatchers gs compile)
      ∧ (∀ (decl : ImportDeclView) (value : String) (pg : PathGroup)
          (gs : List (Option PathGroup)) (compile : String → Option (String → Bool))
          (bs : List String),
          compile pg.pattern = none →
          classifyPathCategory decl value
              (createPathGroupMatchers (some pg :: gs) compile) bs
            = classifyPathCategory decl value (createPathGroupMatchers gs compile) bs) := by
  have hdrop : ∀ (pg : PathGroup) (gs : List (Option PathGroup))
      (compile : String → Option (String → Bool)),
      compile pg.pattern = none →
      createPathGroupMatchers (some pg :: gs) compile
        = createPathGroupMatchers gs compile := by
    intro pg gs compile hc
    rw [cpgm_cons]
    simp [cpgmStep, hc]
  refine ⟨?_, hdrop, ?_⟩
  · intro gs compile
    induction gs with
    | nil => rfl
    | cons g t ih =>
      cases g with
      | none =>
        rw [cpgm_cons]
        simp only [List.filter_cons, cpgmStep]
        rw [ih]
        rfl
      | some pg =>
        cases hc : compile pg.pattern with
        | none =>
          rw [cpgm_cons]
          simp only [cpgmStep, hc, List.nil_append, List.filter_cons]
          rw [ih]
          simp [hc]
        | some tf =>
          rw [cpgm_cons, List.filter_cons]
          simp only [hc, Option.isSome_some, if_true, cpgmStep]
          rw [cpgm_cons, ih]
          simp [cpgmStep, hc]
  · intro decl value pg gs compile bs hc
    rw [hdrop pg gs compile hc]

/-- Witness for C9 at a concrete configuration: the malformed pattern `(`
is dropped, and classification with it present equals classification
without it. -/
theorem claim_C9_witness :
    createPathGroupMatchers [some pgBad] compileModel
        = createPathGroupMatchers [] compileModel
      ∧ classifyPathCategory declBw "zzz" (createPathGroupMatchers
            [some pgBad, some pgGood] compileModel) []
        = classifyPathCategory declBw "zzz" (createPathGroupMatchers
            [some pgGood] compileModel) [] :=
  ⟨claim_C9_invalid_pattern_dropped.2.1 pgBad [] compileModel rfl,
    claim_C9_invalid_pattern_dropped.2.2 declBw "zzz" pgBad [some pgGood] compileModel []
      rfl⟩

end ImportSortRule

namespace ListNewlineRule

/-- C7 (amended): single-element containers in inline mode whose closing
delimiter sits on a different line.  If the container's kind is outside the
always-enforce set `multilineNodes`, no diagnostic is produced at all; if
it is in the set, the `shouldNotWrap` diagnostic with the line-break-
removal fix is produced PROVIDED no comment follows the element (a trailing
comment suppresses the diagnostic — this is the correction the
counterexample forces) and the gap up to the closing position contains a
line break. -/
theorem claim_C7_single_element_closing :
    ∀ (text : String) (locLine : Nat → Nat) (node : ContainerView)
      (children : List (Option ItemView)) (item : ItemView) (st et : Tok),
      children.filterMap id = [item] →
      resolveStartToken node = some st →
      node.tokenAfterLastItem = some et →
      st.startLine ≠ et.endLine →
      item.startLine = st.startLine →
      locLine (endRangeOf node) ≠ item.endLine →
      ((node.kind ∉ multilineNodes → check text locLine node children = [])
        ∧ (node.kind ∈ multilineNodes → item.commentsAfterCount = 0 →
            strContains (jsSlice text item.rangeEnd (endRangeOf node)) '\n' = true →
            check text locLine node children
              = [⟨"shouldNotWrap", .replaceRange item.rangeEnd (endRangeOf node)
                  (replaceNewlines (jsSlice text item.rangeEnd (endRangeOf node)) "")⟩])) := by
  intro text locLine node children item st et hfm hst het hline hinline hend
  have hw : walkItems text node.kind none ⟨none, st.startLine, []⟩ [item]
      = ⟨some .inlineM, item.endLine, []⟩ := by
    simp [walkItems, walkStep, hinline]
  constructor
  · intro hnotin
    simp only [check, hfm, hst, het, List.getLast?_singleton, hw]
    rw [if_neg hline]
    simp [hend, hnotin]
  · intro hin hcom hnl
    simp only [check, hfm, hst, het, List.getLast?_singleton, hw]
    rw [if_neg hline]
    simp [hend, hin, hcom, hnl]

/-- C7 (counterexample to the claim as stated): a single-property
`ObjectExpression` — a kind IN the always-enforce set — in inline mode with
the closing brace on the next line produces NO diagnostic when a comment
follows the property, although the claim promises a `shouldNotWrap`
diagnostic for that kind unconditionally. -/
theorem claim_C7_counterexample :
    objNode1.kind ∈ multilineNodes
      ∧ resolveStartToken objNode1 = some ⟨1, 1, 10, 11, true⟩
      ∧ objNode1.tokenAfterLastItem = some ⟨2, 2, 22, 23, true⟩
      ∧ objItem1.startLine = 1
      ∧ objLoc1 (endRangeOf objNode1) = 2
      ∧ objItem1.endLine = 1
      ∧ objItem1.commentsAfterCount = 1
      ∧ check objText1 objLoc1 objNode1 [some objItem1] = [] := by
  refine ⟨by decide, by decide, by decide, by decide, by decide, by decide, by decide,
    by decide⟩

/-- Witness for C7 at concrete containers: the single-type-argument
container (outside the set) yields no diagnostic; the comment-free
single-property object (inside the set) yields exactly the unwrap
diagnostic with its line-break-removal fix. -/
theorem claim_C7_witness :
    check tpText tpLoc tpNode [some tpItem] = []
      ∧ check objText2 objLoc2 objNode2 [some objItem2]
        = [⟨"shouldNotWrap", .replaceRange objItem2.rangeEnd (endRangeOf objNode2)
            (replaceNewlines (jsSlice objText2 objItem2.rangeEnd (endRangeOf objNode2))
              "")⟩] :=
  ⟨(claim_C7_single_element_closing tpText tpLoc tpNode [some tpItem] tpItem
      ⟨1, 1, 1, 2, true⟩ ⟨2, 2, 4, 5, true⟩ (by decide) (by decide) (by decide)
      (by decide) (by decide) (by decide)).1 (by decide),
    (claim_C7_single_element_closing objText2 objLoc2 objNode2 [some objItem2] objItem2
      ⟨1, 1, 10, 11, true⟩ ⟨2, 2, 17, 18, true⟩ (by decide) (by decide) (by decide)
      (by decide) (by decide) (by decide)).2 (by decide) (by decide) (by decide)⟩

end ListNewlineRule

namespace ChainingRule

/-- C8: the leading-property-access exemption and mode enforcement of the
chaining rule.  (1) With the exemption enabled, a leading access whose
object is a simple reference (identifier, `this`, literal, or member
access) and whose dot shares a line with the token before it is skipped
entirely: it produces no report and leaves the chain's mode unestablished.
(2) The first access processed while no mode is set and the exemption does
not apply establishes the mode from its own layout and reports nothing.
(3) Once a mode is set, an agreeing access changes nothing, and a
disagreeing access is reported as `shouldNotWrap` (established single) or
`shouldWrap` (established multi), with the fix inserting a line break
after the token before the dot, respectively removing the range between
that token and the dot. -/
theorem claim_C8_leading_access_exemption :
    (∀ (m : MemberView) (ms : List MemberView),
        isSimpleObject m.objKind = true → currentModeOf m = .single →
        processChain true (m :: ms) = processChain true ms)
      ∧ (∀ (st : ChainSt) (m : MemberView),
          st.mode = none →
          (st.leading = false ∨ isSimpleObject m.objKind = false
            ∨ currentModeOf m = .multi) →
          chainStep st m = { st with leading := false, mode := some (currentModeOf m) })
      ∧ (∀ (st : ChainSt) (mo : CMode) (m : MemberView),
          st.mode = some mo →
          (st.leading = false ∨ isSimpleObject m.objKind = false
            ∨ currentModeOf m = .multi) →
          ((currentModeOf m = mo → chainStep st m = { st with leading := false })
            ∧ (currentModeOf m ≠ mo →
                chainStep st m
                  = { st with
                        leading := false
                        reports := st.reports ++
                          [⟨(if mo = .single then "shouldNotWrap" else "shouldWrap"),
                            (if mo = .multi then CFix.insertAfterPrev m.prevRangeEnd "\n"
                              else CFix.removeRange m.prevRangeEnd
                                m.dotRangeStart)⟩] }))) := by
  have hnotex : ∀ (st : ChainSt) (m : MemberView),
      (st.leading = false ∨ isSimpleObject m.objKind = false
        ∨ currentModeOf m = .multi) →
      ¬(st.leading = true ∧ isSimpleObject m.objKind = true
        ∧ currentModeOf m = .single) := by
    intro st m hne hc
    rcases hne with h | h | h
    · rw [hc.1] at h
      cases h
    · rw [hc.2.1] at h
      cases h
    · rw [hc.2.2] at h
      cases h
  refine ⟨?_, ?_, ?_⟩
  · intro m ms hsimple hsingle
    unfold processChain
    simp only [List.foldl_cons]
    have : chainStep ⟨true, none, []⟩ m = ⟨true, none, []⟩ := by
      unfold chainStep
      rw [if_pos ⟨rfl, hsimple, hsingle⟩]
    rw [this]
  · intro st m hmode hne
    unfold chainStep
    rw [if_neg (hnotex st m hne)]
    simp only [hmode]
  · intro st mo m hmode hne
    constructor
    · intro hagree
      unfold chainStep
      rw [if_neg (hnotex st m hne)]
      simp only [hmode]
      rw [if_neg (by rw [hagree]; simp)]
    · intro hdis
      unfold chainStep
      rw [if_neg (hnotex st m hne)]
      simp only [hmode]
      rw [if_pos (fun h => hdis h.symm)]

/-- Witness for C8 at concrete accesses: the leading same-line access on an
identifier is skipped; the first wrapped access establishes multi mode;
the later inline access is reported `shouldWrap` with the insert-newline
fix before its dot. -/
theorem claim_C8_witness :
    processChain true [memLead] = processChain true []
      ∧ chainStep ⟨true, none, []⟩ memBar = ⟨false, some .multi, []⟩
      ∧ chainStep ⟨false, some .multi, []⟩ memBaz
        = ⟨false, some .multi, [⟨"shouldWrap", CFix.insertAfterPrev 12 "\n"⟩]⟩ :=
  ⟨claim_C8_leading_access_exemption.1 memLead [] (by decide) (by decide),
    claim_C8_leading_access_exemption.2.1 ⟨true, none, []⟩ memBar rfl
      (Or.inr (Or.inr (by decide))),
    (claim_C8_leading_access_exemption.2.2 ⟨false, some .multi, []⟩ .multi memBaz rfl
      (Or.inl rfl)).2 (by decide)⟩

end ChainingRule


namespace ChainingRule

theorem currentModeOf_fixMember (mo : CMode) (m : MemberView) :
    currentModeOf (fixMember mo m) = mo := by
  cases mo <;> simp [fixMember, currentModeOf]

theorem chainStep_exempt_state (st : ChainSt) (m : MemberView)
    (h : st.leading = true ∧ isSimpleObject m.objKind = true ∧ currentModeOf m = .single) :
    chainStep st m = st := by
  unfold chainStep
  rw [if_pos h]

theorem chainStep_establish (leading : Bool) (rs : List CReport) (m : MemberView)
    (hex : ¬(leading = true ∧ isSimpleObject m.objKind = true ∧ currentModeOf m = .single)) :
    chainStep ⟨leading, none, rs⟩ m = ⟨false, some (currentModeOf m), rs⟩ := by
  unfold chainStep
  rw [if_neg hex]

theorem chainStep_match (mo : CMode) (rs : List CReport) (m : MemberView)
    (h : mo = currentModeOf m) :
    chainStep ⟨false, some mo, rs⟩ m = ⟨false, some mo, rs⟩ := by
  simp [chainStep, h]

theorem chainStep_fixed (mo : CMode) (rs : List CReport) (m : MemberView) :
    chainStep ⟨false, some mo, rs⟩ (fixMember mo m) = ⟨false, some mo, rs⟩ := by
  simp [chainStep, currentModeOf_fixMember]

theorem chain_refix_aux :
    ∀ (ms : List MemberView) (leading : Bool) (mode : Option CMode) (rs : List CReport),
      (leading = true → mode = none) →
      (List.foldl chainStep ⟨leading, mode, rs⟩ (applyChainFixes leading mode ms)).reports
        = rs := by
  intro ms
  induction ms with
  | nil => intro leading mode rs _; rfl
  | cons m rest ih =>
    intro leading mode rs hlm
    by_cases hex : leading = true ∧ isSimpleObject m.objKind = true
        ∧ currentModeOf m = .single
    · simp only [applyChainFixes]
      rw [if_pos hex, List.foldl_cons, chainStep_exempt_state ⟨leading, mode, rs⟩ m hex]
      exact ih leading mode rs hlm
    · cases mode with
      | none =>
        simp only [applyChainFixes]
        rw [if_neg hex, List.foldl_cons, chainStep_establish leading rs m hex]
        exact ih false (some (currentModeOf m)) rs (fun h => nomatch h)
      | some mo =>
        have hl : leading = false := by
          cases leading
          · rfl
          · exact nomatch (hlm rfl)
        subst hl
        by_cases hmm : mo ≠ currentModeOf m
        · simp only [applyChainFixes]
          rw [if_neg hex, if_pos hmm, List.foldl_cons, chainStep_fixed mo rs m]
          exact ih false (some mo) rs (fun h => nomatch h)
        · simp only [applyChainFixes]
          rw [if_neg hex, if_neg hmm, List.foldl_cons,
            chainStep_match mo rs m (not_not.mp hmm)]
          exact ih false (some mo) rs (fun h => nomatch h)

end ChainingRule

namespace ListNewlineRule

theorem locMonoUpTo_spec (f : Nat → Nat) (B : Nat) (h : locMonoUpTo f B = true) :
    ∀ p q, p ≤ q → q ≤ B → f p ≤ f q := by
  intro p q hpq hqB
  unfold locMonoUpTo at h
  rw [List.all_eq_true] at h
  have hq := h q (List.mem_range.mpr (by omega))
  rw [List.all_eq_true] at hq
  have hp := hq p (List.mem_range.mpr (by omega))
  exact of_decide_eq_true hp

theorem locCohUpTo_spec (text : String) (f : Nat → Nat) (B : Nat)
    (h : locCohUpTo text f B = true) :
    ∀ p q, p ≤ q → q ≤ B → f p = f q → strContains (jsSlice text p q) '\n' = false := by
  intro p q hpq hqB heq
  unfold locCohUpTo at h
  rw [List.all_eq_true] at h
  have hq := h q (List.mem_range.mpr (by omega))
  rw [List.all_eq_true] at hq
  have hp := hq p (List.mem_range.mpr (by omega))
  rcases Bool.or_eq_true_iff.mp hp with h1 | h1
  · exact absurd heq (by simpa using h1)
  · simpa using h1

theorem replaceNewlinesList_no_newline (d : List Char) (hd : '\n' ∉ d) :
    ∀ l : List Char, '\n' ∉ replaceNewlinesList d l := by
  intro l
  induction l using replaceNewlinesList.induct d with
  | case1 => simp [replaceNewlinesList]
  | case2 rest ih =>
    rw [replaceNewlinesList]
    intro hmem
    rcases List.mem_append.mp hmem with h | h
    · exact hd h
    · exact ih h
  | case3 rest ih =>
    rw [replaceNewlinesList]
    intro hmem
    rcases List.mem_append.mp hmem with h | h
    · exact hd h
    · exact ih h
  | case4 c rest h1 h2 ih =>
    rw [replaceNewlinesList]
    · intro hmem
      rcases List.mem_cons.mp hmem with h | h
      · exact h2 h.symm
      · exact ih h
    · exact h1
    · exact h2

theorem strContains_false_iff (s : String) (c : Char) :
    strContains s c = false ↔ c ∉ s.toList := by
  simp [strContains]

theorem replaceNewlines_no_newline (g d : String) (hd : strContains d '\n' = false) :
    strContains (replaceNewlines g d) '\n' = false := by
  rw [strContains_false_iff] at hd ⊢
  rw [show (replaceNewlines g d).toList = replaceNewlinesList d.toList g.toList from rfl]
  exact replaceNewlinesList_no_newline d.toList hd g.toList

theorem getDelimiter_getD_no_newline (k : NodeKind) (text : String) (it : ItemView) :
    strContains ((getDelimiter k text it).getD "") '\n' = false := by
  unfold getDelimiter
  by_cases h1 : k ≠ NodeKind.tsInterfaceDeclaration ∧ k ≠ NodeKind.tsTypeLiteral
  · rw [if_pos h1]; rfl
  · rw [if_neg h1]
    show strContains ((if jsEndsWith (jsSlice text it.rangeStart it.rangeEnd) "," = true
        ∨ jsEndsWith (jsSlice text it.rangeStart it.rangeEnd) ";" = true
      then none else some ",").getD "") '\n' = false
    split_ifs <;> rfl

theorem closing_delim_no_newline (k : NodeKind) (text : String) (it : ItemView) (n : Nat) :
    strContains (((if n = 1 then some "" else getDelimiter k text it).getD "")) '\n'
      = false := by
  by_cases h : n = 1
  · rw [if_pos h]; rfl
  · rw [if_neg h]; exact getDelimiter_getD_no_newline k text it

end ListNewlineRule

namespace ListNewlineRule

theorem itemsCoherent_cons (f : Nat → Nat) (prev it : ItemView) (rest : List ItemView)
    (h : itemsCoherent f prev (it :: rest) = true) :
    prev.rangeEnd ≤ it.rangeStart ∧ it.rangeStart ≤ it.rangeEnd
      ∧ it.startLine = f it.rangeStart ∧ it.endLine = f it.rangeEnd
      ∧ itemsCoherent f it rest = true := by
  simp only [itemsCoherent, Bool.and_eq_true, decide_eq_true_eq] at h
  tauto

theorem itemsLast_rangeEnd_ge :
    ∀ (its : List ItemView) (f : Nat → Nat) (prev : ItemView),
      itemsCoherent f prev its = true → prev.rangeEnd ≤ (itemsLast prev its).rangeEnd := by
  intro its
  induction its with
  | nil => intro f prev _; exact le_rfl
  | cons it rest ih =>
    intro f prev h
    obtain ⟨h1, h2, _, _, h5⟩ := itemsCoherent_cons f prev it rest h
    calc prev.rangeEnd ≤ it.rangeStart := h1
      _ ≤ it.rangeEnd := h2
      _ ≤ (itemsLast it rest).rangeEnd := ih f it h5

theorem walk_inline_safe :
    ∀ (its : List ItemView) (text : String) (kind : NodeKind) (prev : ItemView)
      (L : Nat) (rs : List LNReport),
      gapsSafe text prev its →
      ∃ L', walkItems text kind (some prev) ⟨some .inlineM, L, rs⟩ its
          = ⟨some .inlineM, L', rs⟩ := by
  intro its
  induction its with
  | nil => intro text kind prev L rs _; exact ⟨L, rfl⟩
  | cons it rest ih =>
    intro text kind prev L rs hsafe
    obtain ⟨hgap, hrest⟩ := hsafe
    rw [walkItems]
    by_cases hs : it.startLine = L
    · rw [show walkStep text kind (some prev) ⟨some .inlineM, L, rs⟩ it
          = ⟨some .inlineM, it.endLine, rs⟩ from by simp [walkStep, hs]]
      exact ih text kind it it.endLine rs hrest
    · by_cases hcom : it.commentsBeforeCount > 0
      · rw [show walkStep text kind (some prev) ⟨some .inlineM, L, rs⟩ it
            = ⟨some .inlineM, L, rs⟩ from by simp [walkStep, hs, hcom]]
        exact ih text kind it L rs hrest
      · have hnl : strContains (jsSlice text prev.rangeEnd it.rangeStart) '\n' = false := by
          rcases hgap with h | h
          · exact absurd h hcom
          · exact h
        rw [show walkStep text kind (some prev) ⟨some .inlineM, L, rs⟩ it
            = ⟨some .inlineM, it.endLine, rs⟩ from by simp [walkStep, hs, hcom, hnl]]
        exact ih text kind it it.endLine rs hrest

theorem inlineLast_locLine :
    ∀ (its : List ItemView) (f : Nat → Nat) (prev : ItemView) (lastLine r : Nat),
      itemsCoherent f prev its = true →
      r ≤ prev.rangeEnd →
      lastLine = f r →
      ∃ r', r' ≤ (itemsLast prev its).rangeEnd ∧ inlineLast lastLine its = f r' := by
  intro its
  induction its with
  | nil => intro f prev lastLine r _ hr hL; exact ⟨r, hr, hL⟩
  | cons it rest ih =>
    intro f prev lastLine r hco hr hL
    obtain ⟨h1, h2, h3, h4, h5⟩ := itemsCoherent_cons f prev it rest hco
    by_cases hskip : it.startLine ≠ lastLine ∧ it.commentsBeforeCount > 0
    · rw [show inlineLast lastLine (it :: rest) = inlineLast lastLine rest from by
        rw [inlineLast, if_pos hskip]]
      exact ih f it lastLine r h5 (by omega) hL
    · rw [show inlineLast lastLine (it :: rest) = inlineLast it.endLine rest from by
        rw [inlineLast, if_neg hskip]]
      exact ih f it it.endLine it.rangeEnd h5 le_rfl h4

theorem getLast?_eq_itemsLast :
    ∀ (l : List ItemView) (a : ItemView), (a :: l).getLast? = some (itemsLast a l) := by
  intro l
  induction l with
  | nil => intro a; rfl
  | cons b t ih => intro a; rw [List.getLast?_cons_cons]; exact ih b

theorem filterMap_id_map_some {α : Type} (l : List α) : (l.map some).filterMap id = l := by
  induction l with
  | nil => rfl
  | cons a t ih => simp [ih]

theorem walk_newline_fixed :
    ∀ (its : List ItemView) (lastOrig shift : Nat) (text : String) (kind : NodeKind)
      (prev : Option ItemView) (rs : List LNReport),
      walkItems text kind prev ⟨some .newlineM, lastOrig + shift, rs⟩
          (fixNewlineItems lastOrig shift its)
        = ⟨some .newlineM, nlLast lastOrig its + nlShift lastOrig shift its, rs⟩ := by
  intro its
  induction its with
  | nil => intro lastOrig shift text kind prev rs; rfl
  | cons it rest ih =>
    intro lastOrig shift text kind prev rs
    by_cases hs : it.startLine = lastOrig
    · rw [show fixNewlineItems lastOrig shift (it :: rest)
          = shiftItem (shift + 1) it :: fixNewlineItems it.endLine (shift + 1) rest from by
        rw [fixNewlineItems, if_pos hs]]
      rw [walkItems]
      rw [show walkStep text kind prev ⟨some .newlineM, lastOrig + shift, rs⟩
            (shiftItem (shift + 1) it) = ⟨some .newlineM, it.endLine + (shift + 1), rs⟩ from by
        simp only [walkStep, shiftItem]
        rw [if_neg (by simp; omega)]
        rfl]
      rw [ih it.endLine (shift + 1) text kind (some (shiftItem (shift + 1) it)) rs]
      rw [show nlLast lastOrig (it :: rest) = nlLast it.endLine rest from rfl]
      rw [show nlShift lastOrig shift (it :: rest) = nlShift it.endLine (shift + 1) rest from by
        rw [nlShift, if_pos hs]]
    · rw [show fixNewlineItems lastOrig shift (it :: rest)
          = shiftItem shift it :: fixNewlineItems it.endLine shift rest from by
        rw [fixNewlineItems, if_neg hs]]
      rw [walkItems]
      rw [show walkStep text kind prev ⟨some .newlineM, lastOrig + shift, rs⟩
            (shiftItem shift it) = ⟨some .newlineM, it.endLine + shift, rs⟩ from by
        simp only [walkStep, shiftItem]
        rw [if_neg (by simp; omega)]
        rfl]
      rw [ih it.endLine shift text kind (some (shiftItem shift it)) rs]
      rw [show nlLast lastOrig (it :: rest) = nlLast it.endLine rest from rfl]
      rw [show nlShift lastOrig shift (it :: rest) = nlShift it.endLine shift rest from by
        rw [nlShift, if_neg hs]]

end ListNewlineRule

namespace ListNewlineRule

theorem fixInline_gapsSafe :
    ∀ (its its' : List ItemView) (text text' : String) (f : Nat → Nat)
      (kind : NodeKind) (prev prev' : ItemView) (lastLine r B : Nat),
      locMonoUpTo f B = true →
      locCohUpTo text f B = true →
      itemsCoherent f prev its = true →
      (itemsLast prev its).rangeEnd ≤ B →
      r ≤ prev.rangeEnd →
      lastLine = f r →
      inlineFixedAgrees text text' kind prev prev' lastLine its its' = true →
      gapsSafe text' prev' its' := by
  intro its
  induction its with
  | nil =>
    intro its' text text' f kind prev prev' lastLine r B _ _ _ _ _ _ hagree
    cases its' with
    | nil => exact trivial
    | cons a b => exact absurd hagree (by simp [inlineFixedAgrees])
  | cons it rest ih =>
    intro its' text text' f kind prev prev' lastLine r B hmono hcoh hco hB hr hL hagree
    cases its' with
    | nil => exact absurd hagree (by simp [inlineFixedAgrees])
    | cons it' rest' =>
      obtain ⟨h1, h2, h3, h4, h5⟩ := itemsCoherent_cons f prev it rest hco
      have hB' : (itemsLast it rest).rangeEnd ≤ B := hB
      have hrB : it.rangeStart ≤ B :=
        le_trans (le_trans h2 (itemsLast_rangeEnd_ge rest f it h5)) hB'
      have hpB : prev.rangeEnd ≤ B := le_trans h1 hrB
      simp only [inlineFixedAgrees, Bool.and_eq_true, decide_eq_true_eq] at hagree
      obtain ⟨hcomEq, hbody⟩ := hagree
      by_cases hs : it.startLine = lastLine
      · rw [if_pos hs] at hbody
        rw [Bool.and_eq_true, decide_eq_true_eq] at hbody
        obtain ⟨hgap', hrec⟩ := hbody
        refine ⟨Or.inr ?_, ih rest' text text' f kind it it' it.endLine it.rangeEnd B
          hmono hcoh h5 hB' le_rfl h4 hrec⟩
        rw [hgap']
        have e2 : f prev.rangeEnd ≤ f it.rangeStart :=
          locMonoUpTo_spec f B hmono _ _ h1 hrB
        have e1 : f r ≤ f prev.rangeEnd :=
          locMonoUpTo_spec f B hmono _ _ hr hpB
        have e3 : f it.rangeStart = f r := by rw [← h3, hs, hL]
        have e4 : f prev.rangeEnd = f it.rangeStart := by omega
        exact locCohUpTo_spec text f B hcoh prev.rangeEnd it.rangeStart h1 hrB e4
      · rw [if_neg hs] at hbody
        by_cases hcom : it.commentsBeforeCount > 0
        · rw [if_pos hcom] at hbody
          rw [Bool.and_eq_true, decide_eq_true_eq] at hbody
          obtain ⟨hgap', hrec⟩ := hbody
          refine ⟨Or.inl (by rw [hcomEq]; exact hcom),
            ih rest' text text' f kind it it' lastLine r B hmono hcoh h5 hB' (by omega) hL
              hrec⟩
        · rw [if_neg hcom] at hbody
          by_cases hnl : strContains (jsSlice text prev.rangeEnd it.rangeStart) '\n' = true
          · rw [if_pos hnl] at hbody
            rw [Bool.and_eq_true, decide_eq_true_eq] at hbody
            obtain ⟨hgap', hrec⟩ := hbody
            refine ⟨Or.inr ?_, ih rest' text text' f kind it it' it.endLine it.rangeEnd B
              hmono hcoh h5 hB' le_rfl h4 hrec⟩
            rw [hgap']
            exact replaceNewlines_no_newline _ _ (getDelimiter_getD_no_newline kind text prev)
          · rw [if_neg hnl] at hbody
            rw [Bool.and_eq_true, decide_eq_true_eq] at hbody
            obtain ⟨hgap', hrec⟩ := hbody
            refine ⟨Or.inr ?_, ih rest' text text' f kind it it' it.endLine it.rangeEnd B
              hmono hcoh h5 hB' le_rfl h4 hrec⟩
            rw [hgap']
            exact eq_false_of_ne_true hnl

end ListNewlineRule

namespace ImportSortRule

/-- C3 (amended): fix idempotence, engine by engine.  (1) Import sort: the
outer pass is idempotent at the entry level — when a block's entries carry
pairwise distinct original indices (as `buildEntries` always numbers them),
re-running `reorderEntries` on the final order it produced, indices
renumbered consecutively the way `buildEntries` would number the fixed
file's declarations and all other keys unchanged (exactly the situation
when the inner pass rewrote no declaration text), reports nothing left to
reorder; the companion counterexample shows the engine-wide claim is false,
because an inner-pass rewrite changes a declaration's length score and the
rule fires again on its own fixed output.  (2) Consistent chaining:
applying the fixes of one run to the chain's member views and re-running
the rule reports nothing, for every chain and configuration.  (3)
Consistent list-newline, newline mode: re-running `check` on any container
whose elements went through the newline-mode fixes (`fixNewlineItems`; the
closing line displaced by the inserted newlines per the run's closing fix)
reports nothing, for every original closing line `L0`.  (4) Consistent
list-newline, inline mode: re-running `check` on any fixed file that agrees
with one inline-mode run's fixes (`inlineFixedAgrees` for the element gaps,
`fixInlineClosing` for the closing gap, untouched comment counts and
element count) reports nothing, provided the original file's line function
is monotone and coherent up to a bound covering the container — facts every
real source file satisfies. -/
theorem claim_C3_outer_fix_idempotent :
    (∀ (entries : List ImportEntry) (cfg : NormalizedSortOption)
        (th : TypeImportHandling) (p : Bool) (n : Nat),
        entries.Pairwise (fun a b => a.originalIndex ≠ b.originalIndex) →
        (reorderEntries (assignIdx n (reorderEntries entries cfg th p).finalEntries)
            cfg th p).didReorder = false)
    ∧ (∀ (allow : Bool) (ms : List ChainingRule.MemberView),
        (ChainingRule.processChain allow
            (ChainingRule.applyChainFixes allow none ms)).reports = [])
    ∧ (∀ (text' : String) (locLine' : Nat → Nat) (node' : ListNewlineRule.ContainerView)
        (st' et' : ListNewlineRule.Tok) (startLine0 L0 : Nat)
        (i1 : ListNewlineRule.ItemView) (rest : List ListNewlineRule.ItemView),
        i1.startLine ≠ startLine0 →
        ListNewlineRule.resolveStartToken node' = some st' →
        node'.tokenAfterLastItem = some et' →
        st'.startLine = startLine0 →
        locLine' (ListNewlineRule.endRangeOf node')
          = L0 + ListNewlineRule.nlShift i1.endLine 0 rest
              + (if L0 = ListNewlineRule.nlLast i1.endLine rest then 1 else 0) →
        ListNewlineRule.check text' locLine' node'
          ((i1 :: ListNewlineRule.fixNewlineItems i1.endLine 0 rest).map some) = [])
    ∧ (∀ (text text' : String) (locLine locLine' : Nat → Nat)
        (node node' : ListNewlineRule.ContainerView)
        (i1 i1' : ListNewlineRule.ItemView)
        (items items' : List ListNewlineRule.ItemView)
        (st0 st0' et0' : ListNewlineRule.Tok) (B : Nat),
        ListNewlineRule.resolveStartToken node = some st0 →
        i1.startLine = st0.startLine →
        i1.endLine = locLine i1.rangeEnd →
        ListNewlineRule.itemsCoherent locLine i1 items = true →
        (ListNewlineRule.itemsLast i1 items).rangeEnd ≤ ListNewlineRule.endRangeOf node →
        ListNewlineRule.endRangeOf node ≤ B →
        ListNewlineRule.locMonoUpTo locLine B = true →
        ListNewlineRule.locCohUpTo text locLine B = true →
        node'.kind = node.kind →
        ListNewlineRule.resolveStartToken node' = some st0' →
        node'.tokenAfterLastItem = some et0' →
        i1'.startLine = st0'.startLine →
        items'.length = items.length →
        ListNewlineRule.inlineFixedAgrees text text' node.kind i1 i1' i1.endLine items
            items' = true →
        (ListNewlineRule.itemsLast i1' items').commentsAfterCount
          = (ListNewlineRule.itemsLast i1 items).commentsAfterCount →
        jsSlice text' (ListNewlineRule.itemsLast i1' items').rangeEnd
            (ListNewlineRule.endRangeOf node')
          = ListNewlineRule.fixInlineClosing text node.kind
              (ListNewlineRule.itemsLast i1 items) (ListNewlineRule.endRangeOf node)
              (locLine (ListNewlineRule.endRangeOf node))
              (ListNewlineRule.inlineLast i1.endLine items) (items.length + 1) →
        ListNewlineRule.check text' locLine' node' ((i1' :: items').map some) = []) := by
  refine ⟨?_, ?_, ?_, ?_⟩
  · intro entries cfg th p n hpw
    rw [reorderEntries_didReorder, reorderEntries_finalEntries,
      runsUnchanged_after_sort cfg th p entries.length entries le_rfl hpw n]
    rfl
  · intro allow ms
    exact ChainingRule.chain_refix_aux ms allow none [] (fun _ => rfl)
  · intro text' locLine' node' st' et' startLine0 L0 i1 rest hm hst het hstl hend
    simp only [ListNewlineRule.check, ListNewlineRule.filterMap_id_map_some, hst, het,
      ListNewlineRule.getLast?_eq_itemsLast]
    by_cases hline : st'.startLine = et'.endLine
    · rw [if_pos hline]
    · rw [if_neg hline]
      rw [ListNewlineRule.walkItems]
      rw [show ListNewlineRule.walkStep text' node'.kind none ⟨none, st'.startLine, []⟩ i1
          = ⟨some .newlineM, i1.endLine, []⟩ from by
        simp [ListNewlineRule.walkStep, hstl, hm]]
      have hwn := ListNewlineRule.walk_newline_fixed rest i1.endLine 0 text' node'.kind
        (some i1) []
      simp only [Nat.add_zero] at hwn
      rw [hwn]
      rw [hend]
      rw [if_neg (by
        intro hcon
        obtain ⟨-, hcon2⟩ := hcon
        dsimp only at hcon2
        by_cases hL0 : L0 = ListNewlineRule.nlLast i1.endLine rest
        · rw [if_pos hL0] at hcon2
          omega
        · rw [if_neg hL0] at hcon2
          omega)]
      rw [if_neg (by simp)]
  · intro text text' locLine locLine' node node' i1 i1' items items' st0 st0' et0' B
      hst0 hm0 hi1e hco hlr hRB hmono hcoh hkind hst' het' hm' hlen hagree hcaEq hclose
    simp only [ListNewlineRule.check, ListNewlineRule.filterMap_id_map_some, hst', het',
      ListNewlineRule.getLast?_eq_itemsLast]
    by_cases hline : st0'.startLine = et0'.endLine
    · rw [if_pos hline]
    · rw [if_neg hline]
      rw [ListNewlineRule.walkItems]
      rw [show ListNewlineRule.walkStep text' node'.kind none ⟨none, st0'.startLine, []⟩ i1'
          = ⟨some .inlineM, i1'.endLine, []⟩ from by
        simp [ListNewlineRule.walkStep, hm']]
      have hsafe : ListNewlineRule.gapsSafe text' i1' items' :=
        ListNewlineRule.fixInline_gapsSafe items items' text text' locLine node.kind i1 i1'
          i1.endLine i1.rangeEnd B hmono hcoh hco (le_trans hlr hRB) le_rfl hi1e hagree
      obtain ⟨L', hw⟩ := ListNewlineRule.walk_inline_safe items' text' node'.kind i1'
        i1'.endLine [] hsafe
      rw [hw]
      rw [if_neg (by simp)]
      by_cases hne : locLine' (ListNewlineRule.endRangeOf node') = L'
      · rw [if_neg (by simp [hne])]
      · rw [if_pos ⟨rfl, hne⟩]
        by_cases hsing : (i1' :: items').length = 1
            ∧ node'.kind ∉ ListNewlineRule.multilineNodes
        · rw [if_pos hsing]
        · rw [if_neg hsing]
          by_cases hca : (ListNewlineRule.itemsLast i1' items').commentsAfterCount > 0
          · rw [if_pos hca]
          · rw [if_neg hca]
            have hnc : strContains (jsSlice text'
                (ListNewlineRule.itemsLast i1' items').rangeEnd
                (ListNewlineRule.endRangeOf node')) '\n' = false := by
              rw [hclose]
              unfold ListNewlineRule.fixInlineClosing
              by_cases hb1 : locLine (ListNewlineRule.endRangeOf node)
                  = ListNewlineRule.inlineLast i1.endLine items
              · rw [if_pos hb1]
                obtain ⟨r', hr', hLL⟩ := ListNewlineRule.inlineLast_locLine items locLine i1
                  i1.endLine i1.rangeEnd hco le_rfl hi1e
                have hmB : (ListNewlineRule.itemsLast i1 items).rangeEnd ≤ B :=
                  le_trans hlr hRB
                have e1 : locLine r'
                    ≤ locLine (ListNewlineRule.itemsLast i1 items).rangeEnd :=
                  ListNewlineRule.locMonoUpTo_spec locLine B hmono _ _ hr' hmB
                have e2 : locLine (ListNewlineRule.itemsLast i1 items).rangeEnd
                    ≤ locLine (ListNewlineRule.endRangeOf node) :=
                  ListNewlineRule.locMonoUpTo_spec locLine B hmono _ _ hlr hRB
                have e3 : locLine (ListNewlineRule.itemsLast i1 items).rangeEnd
                    = locLine (ListNewlineRule.endRangeOf node) := by
                  rw [hb1, hLL] at *
                  omega
                exact ListNewlineRule.locCohUpTo_spec text locLine B hcoh _ _ hlr hRB e3
              · rw [if_neg hb1]
                by_cases hb2 : items.length + 1 = 1
                    ∧ node.kind ∉ ListNewlineRule.multilineNodes
                · exact absurd ⟨by simp [hlen, hb2.1], by rw [hkind]; exact hb2.2⟩ hsing
                · rw [if_neg hb2]
                  by_cases hb3 : (ListNewlineRule.itemsLast i1 items).commentsAfterCount > 0
                  · exact absurd (by rw [hcaEq]; exact hb3) hca
                  · rw [if_neg hb3]
                    by_cases hb4 : strContains (jsSlice text
                        (ListNewlineRule.itemsLast i1 items).rangeEnd
                        (ListNewlineRule.endRangeOf node)) '\n' = true
                    · rw [if_pos hb4]
                      exact ListNewlineRule.replaceNewlines_no_newline _ _
                        (ListNewlineRule.closing_delim_no_newline node.kind text
                          (ListNewlineRule.itemsLast i1 items) (items.length + 1))
                    · rw [if_neg hb4]
                      exact eq_false_of_ne_true hb4
            rw [if_neg (by simp [hnc])]

end ImportSortRule

namespace ImportSortRule

/-- Witness for C3 at concrete inputs: re-sorting the reordered scenario
block detects no further change; re-running the chaining rule on the fixed
`foo.bar().baz` chain reports nothing; re-running the list-newline rule on
the fixed two-element array (newline mode) and on the fixed two-property
object (inline mode) reports nothing. -/
theorem claim_C3_witness :
    (reorderEntries (assignIdx 0 (reorderEntries [eBarSc, eFooSc] defaultSortOption
        .before false).finalEntries) defaultSortOption .before false).didReorder = false
    ∧ (ChainingRule.processChain true (ChainingRule.applyChainFixes true none
        [ChainingRule.memLead, ChainingRule.memBar, ChainingRule.memBaz])).reports = []
    ∧ ListNewlineRule.check ListNewlineRule.nlTextF ListNewlineRule.nlLocF
        ListNewlineRule.nlNodeF
        ((ListNewlineRule.nlItem1 :: ListNewlineRule.fixNewlineItems 2 0
          [ListNewlineRule.nlItem2]).map some) = []
    ∧ ListNewlineRule.check ListNewlineRule.ilTextF ListNewlineRule.ilLocF
        ListNewlineRule.ilNodeF
        ((ListNewlineRule.ilItemA :: [ListNewlineRule.ilItemBF]).map some) = [] :=
  ⟨claim_C3_outer_fix_idempotent.1 [eBarSc, eFooSc] defaultSortOption .before false 0
      (by decide),
    claim_C3_outer_fix_idempotent.2.1 true
      [ChainingRule.memLead, ChainingRule.memBar, ChainingRule.memBaz],
    claim_C3_outer_fix_idempotent.2.2.1 ListNewlineRule.nlTextF ListNewlineRule.nlLocF
      ListNewlineRule.nlNodeF ⟨1, 1, 0, 1, true⟩ ⟨4, 4, 8, 9, true⟩ 1 3
      ListNewlineRule.nlItem1 [ListNewlineRule.nlItem2]
      (by decide) (by decide) (by decide) (by decide) (by decide),
    claim_C3_outer_fix_idempotent.2.2.2 ListNewlineRule.ilText ListNewlineRule.ilTextF
      ListNewlineRule.ilLoc ListNewlineRule.ilLocF ListNewlineRule.ilNode
      ListNewlineRule.ilNodeF ListNewlineRule.ilItemA ListNewlineRule.ilItemA
      [ListNewlineRule.ilItemB] [ListNewlineRule.ilItemBF]
      ⟨1, 1, 10, 11, true⟩ ⟨1, 1, 10, 11, true⟩ ⟨1, 1, 22, 23, true⟩ 24
      (by decide) (by decide) (by decide) (by decide) (by decide) (by decide) (by decide)
      (by decide) (by decide) (by decide) (by decide) (by decide) (by decide) (by decide)
      (by decide) (by decide)⟩

end ImportSortRule
